import Mathlib

/-!
Shallow embedding of the core logic of the `igc-x-json_schema` utilities:
the term-graph-to-JSON-Schema generator (`getJSONSchemaFromTermTypeHierarchy`,
in its newer form with a configurable cardinality attribute), and the
JSON-Schema-to-OpenIGC asset compiler (`json-schema-open-igc.js`).

JavaScript objects used as string-keyed maps are modelled as association
lists with JS assignment semantics (`setKey`: overwrite in place, append if
new) and JS property lookup (`findVal`).  The external `camelcase` npm
library is modelled as an opaque function parameter `cc` of the
configuration; the repository's own preprocessing (character replacement)
is embedded faithfully.  File writes (`fs.writeFileSync`) become updates of
a filename-keyed store; `fs.readFileSync` of a missing file, and any other
thrown exception, is modelled by `Option.none` propagation.
-/

namespace IgcJsonSchema

/-- JS object property read: `obj[k]`, `none` when the key is absent. -/
def findVal (k : String) : List (String × α) → Option α
  | [] => none
  | (a, b) :: t => if a = k then some b else findVal k t

/-- JS object property assignment `obj[k] = v`: overwrites in place,
appends when the key is new (JS objects keep insertion order). -/
def setKey (k : String) (v : α) : List (String × α) → List (String × α)
  | [] => [(k, v)]
  | (a, b) :: t => if a = k then (k, v) :: t else (a, b) :: setKey k v t

theorem findVal_setKey_self (k : String) (v : α) (l : List (String × α)) :
    findVal k (setKey k v l) = some v := by
  induction l with
  | nil => simp [setKey, findVal]
  | cons p t ih =>
    obtain ⟨a, b⟩ := p
    by_cases h : a = k
    · simp [setKey, h, findVal]
    · simp [setKey, h, findVal, ih]

theorem findVal_setKey_ne (k k' : String) (v : α) (l : List (String × α))
    (h : k' ≠ k) : findVal k' (setKey k v l) = findVal k' l := by
  induction l with
  | nil => simp [setKey, findVal, Ne.symm h]
  | cons p t ih =>
    obtain ⟨a, b⟩ := p
    by_cases ha : a = k
    · subst ha
      simp [setKey, findVal, Ne.symm h]
    · simp only [setKey, if_neg ha, findVal]
      by_cases hk : a = k'
      · simp [hk]
      · simp [hk, ih]

theorem findVal_mem_keys (k : String) (l : List (String × α)) :
    ∀ v, findVal k l = some v → k ∈ l.map Prod.fst := by
  induction l with
  | nil => intro v h; simp [findVal] at h
  | cons p t ih =>
    intro v h
    obtain ⟨a, b⟩ := p
    by_cases ha : a = k
    · simp [ha]
    · simp only [findVal, if_neg ha] at h
      simpa using Or.inr (ih v h)

theorem keys_setKey (k : String) (v : α) (l : List (String × α)) :
    (setKey k v l).map Prod.fst = if k ∈ l.map Prod.fst then l.map Prod.fst
      else l.map Prod.fst ++ [k] := by
  induction l with
  | nil => simp [setKey]
  | cons p t ih =>
    obtain ⟨a, b⟩ := p
    by_cases ha : a = k
    · simp [setKey, ha]
    · have hne : ¬ k = a := fun h => ha h.symm
      by_cases hk : k ∈ t.map Prod.fst
      · simp [setKey, ha, ih, hk, hne]
      · simp [setKey, ha, ih, hk, hne]

theorem mem_keys_setKey (k k' : String) (v : α) (l : List (String × α)) :
    k' ∈ (setKey k v l).map Prod.fst ↔ k' = k ∨ k' ∈ l.map Prod.fst := by
  rw [keys_setKey]
  by_cases h : k ∈ l.map Prod.fst
  · simp only [if_pos h]
    constructor
    · exact Or.inr
    · rintro (rfl | hm)
      · exact h
      · exact hm
  · simp only [if_neg h, List.mem_append, List.mem_singleton]
    tauto

/-! ### Data model: terms and relationship items

An IGC REST relationship item carries `_id` and `_name`; these are the only
fields the utilities read from relationship collections (`{items: [...]}`).
Fields named `_id`/`_name` in the source are `rid`/`name` here. -/

structure RelItem where
  rid : String
  name : String
  deriving DecidableEq, Repr

/-- A term as cached in `hmRidToObject`: the properties requested by the
generator's term query.  `cardinality` is the value of the configurable
cardinality custom attribute (`argv.multipleAttr`), `none` when the term
does not carry the attribute (`hasOwnProperty` false). -/
structure Term where
  rid : String
  name : String
  categoryPath : List RelItem
  shortDescription : String
  longDescription : String
  hasTypes : List RelItem
  isATypeOf : List RelItem
  hasA : List RelItem
  assignedTerms : List RelItem
  assignedToTerms : List RelItem
  cardinality : Option String
  deriving DecidableEq, Repr

/-- The in-memory term cache `hmRidToObject`, keyed by RID. -/
abbrev Cache := List (String × Term)

/-- Run configuration: `argv.namespace` (`ns`), `argv.directory` (`dir`),
and the external `camelcase` npm library (`cc`), treated as an opaque
collaborator function. -/
structure Config where
  ns : String
  dir : String
  cc : String → String

/-- JS `String.prototype.toUpperCase` (character-wise). -/
def jsToUpper (s : String) : String :=
  (s.toList.map Char.toUpper).asString

/-- `formatNameForJSON`: replace `/`, `(`, `)` by `-` (the regex
`/[/\(\)]/g`), then apply the external `camelcase` library. -/
def formatNameForJSON (cfg : Config) (name : String) : String :=
  cfg.cc ((name.toList.map (fun c => if c = '/' ∨ c = '(' ∨ c = ')' then '-' else c)).asString)

/-- `getDefnPathFromCategoryPath`: walk the category path from the last
item down to the first, appending `"/" + formatNameForJSON(name)`. -/
def getDefnPathFromCategoryPath (cfg : Config) (pathItems : List RelItem) : String :=
  pathItems.reverse.foldl (fun defn it => defn ++ "/" ++ formatNameForJSON cfg it.name) ""

/-- `getIdentityForTerm`: category names (reversed) joined by the path
separator `"::"`, followed by the term's own name. -/
def getIdentityForTerm (term : Term) : String :=
  term.categoryPath.reverse.foldl (fun p it => p ++ it.name ++ "::") "" ++ term.name

/-- `getSingularDescription`: prefer `long_description`, else
`short_description`, else the empty string. -/
def getSingularDescription (term : Term) : String :=
  if term.longDescription ≠ "" then term.longDescription
  else if term.shortDescription ≠ "" then term.shortDescription
  else ""

/-- The term's `jsonSchemaId` as attached while caching:
`argv.namespace + path + "/" + name`. -/
def jsonSchemaId (cfg : Config) (term : Term) : String :=
  cfg.ns ++ getDefnPathFromCategoryPath cfg term.categoryPath ++ "/"
    ++ formatNameForJSON cfg term.name

/-- `elementTheSame(element, index, array)`: `element === array[0]`. -/
def elementTheSame (arr : List String) (element : String) : Bool :=
  arr.head? = some element

/-- `mergeTypes(typeArray)`: if every element equals the first, the first
element; otherwise the generic fallback `"string"`.  On the empty array the
JS code returns `typeArray[0]`, i.e. `undefined`, modelled as `none`. -/
def mergeTypes (typeArray : List String) : Option String :=
  if typeArray.all (elementTheSame typeArray) then typeArray.head? else some "string"

/-- `setJSONSchemaTypeFromIGCType`'s mapping of an IGC type to the JSON
Schema `(type, format)` pair it assigns. -/
def igcTypeToJSON (type : String) : String × Option String :=
  if type = "date" then ("string", some "date")
  else if type = "timestamp" then ("string", some "date-time")
  else if type = "numeric" then ("number", none)
  else (type, none)

/-- JS `String.prototype.split` on single separator characters (keeps
empty segments, like the JS method). -/
def splitChars (p : Char → Bool) : List Char → List (List Char)
  | [] => [[]]
  | c :: rest =>
    let r := splitChars p rest
    if p c then [] :: r
    else
      match r with
      | [] => [[c]]
      | s :: ss => (c :: s) :: ss

/-- The last segment of an id: `schemaId.split(/[\\/]/).pop()`. -/
def lastSegment (s : String) : String :=
  ((splitChars (fun c => c = '/' ∨ c = '\\') s.toList).getLastD []).asString

/-- `getSchemaFileFromId`: output file named by the LAST segment of the
schema id only (`path.sep` is `/`). -/
def getSchemaFileFromId (cfg : Config) (schemaId : String) : String :=
  cfg.dir ++ "/" ++ lastSegment schemaId ++ ".json"

/-! ### JSON Schema documents as emitted by the generator -/

/-- A property value inside a schema document's `properties` map:
a direct `{"$ref": r}` (where `r` is `null` when the related term's id
could not be resolved), an array-of-ref
`{"type":"array","items":{"$ref": r}}`, or (added by the relationship
linker) an object `{"type":"object","properties":{...}}`. -/
inductive PropVal where
  | ref (r : Option String)
  | arrayOfRef (r : Option String)
  | objectVal (props : List (String × PropVal))

/-- The schema document built by `defineSchemaForTerm` (and later mutated
by `linkTermsViaRelation`).  The constant `$schema` field is omitted. -/
structure SchemaDoc where
  id : String
  title : String
  description : String
  type : Option String := none
  format : Option String := none
  enum : Option (List String) := none
  properties : Option (List (String × PropVal)) := none
  xRelationObject : Bool := false

/-- The sidecar built by `addToSidecar` alongside each schema.  The
configurable passthrough property list is fixed at its default
`["short_description", "long_description"]` here. -/
structure Sidecar where
  schema : String
  identity : String
  rid : String
  shortDescription : String
  longDescription : String

/-- Mutable state of a generation run: `hmProcessedRIDs`,
`hmNameClashCheck`, the output directory contents (schema files and
sidecar files), and the console log. -/
structure RunState where
  processed : List String
  nameClash : List String
  files : List (String × SchemaDoc)
  sidecarFiles : List (String × Sidecar)
  log : List String

/-- `getTermFromCache`: cache lookup by RID; a miss logs an `ERROR` line
and yields `null` (no exception). -/
def getTermFromCache (cache : Cache) (rid : String) : Option Term × List String :=
  match findVal rid cache with
  | some t => (some t, [])
  | none => (none, ["ERROR: Unable to find in cache -- " ++ rid])

/-- `getTermRefFromCache`: the `jsonSchemaId` of the cached term, `null`
when the term is absent (with the inner lookup's log line). -/
def getTermRefFromCache (cfg : Config) (cache : Cache) (rid : String) :
    Option String × List String :=
  let r := getTermFromCache cache rid
  (r.1.map (jsonSchemaId cfg), r.2)

/-- The cardinality test on a resolved `has_a` term: the custom attribute
is present and its value upper-cases to `YES`, `TRUE` or `Y`
(`rObj[cardinalityCA].toUpperCase()`). -/
def isMultiCardinality (rObj : Term) : Bool :=
  match rObj.cardinality with
  | some v => jsToUpper v = "YES" ∨ jsToUpper v = "TRUE" ∨ jsToUpper v = "Y"
  | none => false

/-- The property emitted for one `has_a` related term: an array-of-ref when
the related term resolves and passes the cardinality test, otherwise a
direct ref; either way the target is `getTermRefFromCache` (which is `null`
for an unresolvable term).  Returns the log lines of both cache lookups. -/
def hasAPropertyValue (cfg : Config) (cache : Cache) (item : RelItem) :
    PropVal × List String :=
  let r := getTermFromCache cache item.rid
  let rr := getTermRefFromCache cfg cache item.rid
  (if (match r.1 with | some o => isMultiCardinality o | none => false) then
      PropVal.arrayOfRef rr.1
    else PropVal.ref rr.1,
   r.2 ++ rr.2)

/-- The `has_a` loop of `defineSchemaForTerm`, one
`schema.properties[rName] = ...` assignment per related term, in order,
threading the properties object and the console log. -/
def buildHasAPropsAux (cfg : Config) (cache : Cache) (acc : List (String × PropVal))
    (log : List String) : List RelItem → List (String × PropVal) × List String
  | [] => (acc, log)
  | item :: rest =>
    let rName := formatNameForJSON cfg item.name
    let vl := hasAPropertyValue cfg cache item
    buildHasAPropsAux cfg cache (setKey rName vl.1 acc) (log ++ vl.2) rest

/-- The `schema.properties` map built by the `has_a` loop of
`defineSchemaForTerm` (starting from the fresh `{}`). -/
def buildHasAProps (cfg : Config) (cache : Cache) (items : List RelItem) :
    List (String × PropVal) × List String :=
  buildHasAPropsAux cfg cache [] [] items

/-- `setJSONSchemaTypeFromIGCType`: set `schema.type` (and for date-like
IGC types also `schema.format`) from an IGC type name. -/
def setJSONSchemaTypeFromIGCType (schema : SchemaDoc) (type : String) : SchemaDoc :=
  if type = "date" then { schema with type := some "string", format := some "date" }
  else if type = "timestamp" then
    { schema with type := some "string", format := some "date-time" }
  else if type = "numeric" then { schema with type := some "number" }
  else { schema with type := some type }

/-- The schema document `defineSchemaForTerm` constructs for a term (the
type-determination section, first match wins), with the log lines produced
while resolving `has_a` relations. -/
def schemaForTerm (cfg : Config) (cache : Cache) (termToType : List (String × String))
    (term : Term) : SchemaDoc × List String :=
  let base : SchemaDoc :=
    { id := jsonSchemaId cfg term
      title := formatNameForJSON cfg term.name
      description := getSingularDescription term }
  let stl :=
    if term.hasA.length > 0 then
      -- "has a" relationships: an object with one property per related term
      let pp := buildHasAProps cfg cache term.hasA
      ({ base with type := some "object", properties := some pp.1 }, pp.2)
    else if term.hasTypes.length > 0 then
      -- "has types": an enum of the children's names, plus the basic type
      let withEnum := { base with enum := some (term.hasTypes.map (·.name)) }
      (match findVal term.rid termToType with
        | some ty => setJSONSchemaTypeFromIGCType withEnum ty
        | none => setJSONSchemaTypeFromIGCType withEnum "string", [])
    else
      -- otherwise: the simple data type, defaulting to "string"
      (match findVal term.rid termToType with
        | some ty => setJSONSchemaTypeFromIGCType base ty
        | none => setJSONSchemaTypeFromIGCType base "string", [])
  let schema2 :=
    if term.assignedTerms.length > 0 then { stl.1 with xRelationObject := true }
    else stl.1
  (schema2, stl.2)

/-- `defineSchemaForTerm`: build and output the schema document (and
sidecar) for one term.  A term whose RID was already processed is a no-op.
`termToType` is the `hmTermToType` cache. -/
def defineSchemaForTerm (cfg : Config) (cache : Cache)
    (termToType : List (String × String)) (st : RunState) (term : Term) : RunState :=
  let path := getDefnPathFromCategoryPath cfg term.categoryPath
  let rid := term.rid
  let name := formatNameForJSON cfg term.name
  if rid ∈ st.processed then st
  else
    let schemaId := cfg.ns ++ path ++ "/" ++ name
    let sidecar : Sidecar :=
      { schema := schemaId, identity := getIdentityForTerm term, rid := rid,
        shortDescription := term.shortDescription,
        longDescription := term.longDescription }
    let clashLog : List String :=
      if name ∈ st.nameClash then
        ["WARNING: found non-unique term name --> " ++ name
          ++ " <-- while processing schema " ++ path ++ "/" ++ name ++ " (" ++ rid ++ ")"]
      else []
    let stl := schemaForTerm cfg cache termToType term
    { processed := st.processed ++ [rid]
      nameClash := st.nameClash ++ [name]
      files := setKey (getSchemaFileFromId cfg schemaId) stl.1 st.files
      sidecarFiles :=
        setKey (getSchemaFileFromId cfg schemaId ++ ".igc") sidecar st.sidecarFiles
      log := st.log ++ clashLog ++ stl.2 }

/-! ### Recursive traversals over term relationships

`getAncestralTerms` and `getOffspringTerms` recurse through a relationship
collection with no visited set; the recursion is bounded only by the shape
of the graph.  The embedding makes the recursion depth explicit with a
`fuel` parameter: `none` means the JS recursion at that depth has not
bottomed out (so `none` for every fuel models divergence). -/

/-- Generic form of the two traversals: for each item of `sel term` (in
order) push its RID, then recurse into the cached term behind that RID
(`getTermFromCache` misses recurse on `null`, contributing nothing). -/
def walkRel (sel : Term → List RelItem) (cache : Cache) :
    Nat → Option Term → Option (List String)
  | _, none => some []
  | 0, some _ => none
  | fuel + 1, some t =>
    (sel t).foldl
      (fun acc it =>
        match acc with
        | none => none
        | some l =>
          match walkRel sel cache fuel (findVal it.rid cache) with
          | some sub => some (l ++ it.rid :: sub)
          | none => none)
      (some [])

/-- `getAncestralTerms`: walk `is_a_type_of` upward (fuel-indexed). -/
def getAncestralTermsF (cache : Cache) (fuel : Nat) (term : Option Term) :
    Option (List String) :=
  walkRel (·.isATypeOf) cache fuel term

/-- `getOffspringTerms`: walk `has_types` downward (fuel-indexed). -/
def getOffspringTermsF (cache : Cache) (fuel : Nat) (term : Option Term) :
    Option (List String) :=
  walkRel (·.hasTypes) cache fuel term

/-! ### The relationship linker -/

/-- `readSchema`: parse the schema file behind an id; a missing file makes
`fs.readFileSync` throw, modelled as `none`. -/
def readSchema (cfg : Config) (files : List (String × SchemaDoc)) (schemaId : String) :
    Option SchemaDoc :=
  findVal (getSchemaFileFromId cfg schemaId) files

/-- The linker's inner loop over the other associated terms: for each
`(otherRid, otherObjId)` not in the inherited-or-self list, add
`properties[lastSegment otherObjId] = {"$ref": otherObjId}` to the
relation property's map.  An entry whose object id is `null` would make
the JS `split` call throw: modelled as `none`. -/
def addRefStep (inherited : List String) :
    Option (List (String × PropVal)) → String × Option String →
      Option (List (String × PropVal)) :=
  fun acc other =>
    match acc with
    | none => none
    | some m =>
      if other.1 ∈ inherited then some m
      else
        match other.2 with
        | none => none
        | some oid => some (setKey (lastSegment oid) (PropVal.ref (some oid)) m)

def addRefsForTerm (inherited : List String) (aRids : List (String × Option String))
    (inner : List (String × PropVal)) : Option (List (String × PropVal)) :=
  aRids.foldl (addRefStep inherited) (some inner)

/-- One pass of the linker's main loop (`for j ...`) for the associated
term `rt = (rtRid, rtObjId)`: read that term's schema document back, graft
in the relation-named object property (pre-populated with the relation's
own properties) unless one already exists, add a `$ref` for every other
associated term that is neither `rtRid` itself nor one of its ancestral
RIDs, and write the document back.  `none` models a thrown exception or a
diverging ancestor traversal. -/
def linkOneTerm (cfg : Config) (cache : Cache) (fuel : Nat) (relnName : String)
    (schRelationProps : Option (List (String × PropVal)))
    (aRids : List (String × Option String)) (st : RunState)
    (rt : String × Option String) : Option RunState :=
  match rt.2 with
  | none => none
  | some rtObjId =>
    match readSchema cfg st.files rtObjId with
    | none => none
    | some schUpdate =>
      let inner0 : List (String × PropVal) := schRelationProps.getD []
      let finish (doc : SchemaDoc) (wlog : List String) : RunState :=
        { st with
            files := setKey (getSchemaFileFromId cfg doc.id) doc st.files
            log := st.log ++ wlog }
      let proceed (withProps : List (String × PropVal)) (forcedType : Option String)
          (wlog : List String) : Option RunState :=
        match getAncestralTermsF cache fuel (getTermFromCache cache rt.1).1 with
        | none => none
        | some anc =>
          match addRefsForTerm (anc ++ [rt.1]) aRids inner0 with
          | none => none
          | some innerFinal =>
            let doc :=
              { schUpdate with
                  type := (match forcedType with | some ty => some ty | none => schUpdate.type)
                  properties :=
                    some (setKey relnName (PropVal.objectVal innerFinal) withProps) }
            some (finish doc wlog)
      match schUpdate.properties with
      | none =>
        -- not an object yet: force it into one (warning logged)
        proceed [] (some "object")
          [" ... WARNING: schema was not an object " ++ rtObjId ++ " -- forcing its addition"]
      | some ps =>
        match findVal relnName ps with
        | none => proceed ps none []
        | some _ =>
          -- a property for this relation already exists: skip (bContinue = false)
          some (finish schUpdate
            [" ... WARNING: schema (" ++ rtObjId ++ ") already has a property for relationship "
              ++ relnName ++ " -- skipping"])

/-- `linkTermsViaRelation`: embed an association term's links into the
documents of the terms it associates.  First pass collects the object ids
of the already-processed assigned terms (warning for the others), second
pass runs `linkOneTerm` for each collected term. -/
def linkTermsViaRelation (cfg : Config) (cache : Cache) (fuel : Nat) (st : RunState)
    (relation : Term) : Option RunState :=
  let relnName := formatNameForJSON cfg relation.name
  let relnSchId := jsonSchemaId cfg relation
  let schRelationOpt : Option (Option (List (String × PropVal))) :=
    if relation.rid ∈ st.processed then
      match readSchema cfg st.files relnSchId with
      | some d => some d.properties
      | none => none     -- readFileSync throws
    else some none       -- schRelation = {}
  match schRelationOpt with
  | none => none
  | some schRelationProps =>
    let pw :=
      relation.assignedTerms.foldl
        (fun (acc : List (String × Option String) × List String) it =>
          if it.rid ∈ st.processed then
            (setKey it.rid (getTermRefFromCache cfg cache it.rid).1 acc.1, acc.2)
          else
            (acc.1, acc.2 ++
              [" ... WARNING: unable to find a previously processed schema for "
                ++ formatNameForJSON cfg it.name ++ " (" ++ it.rid ++ ")"]))
        (([], []) : List (String × Option String) × List String)
    let st1 := { st with log := st.log ++ pw.2 }
    pw.1.foldl
      (fun acc rt =>
        match acc with
        | none => none
        | some s => linkOneTerm cfg cache fuel relnName schRelationProps pw.1 s rt)
      (some st1)

/-! ### The data-class caching phase -/

/-- A JS value as it can reach `mergeTypes` at runtime: the intended array
of type tags, or — through the expression `types.push(previous)`, whose
value is the array's new length — a number. -/
inductive JSValue where
  | arr (elems : List String)
  | num (n : Nat)

/-- `mergeTypes` under JS dynamic typing: on an array it merges; on a
number, `typeArray.every` is not a function and a `TypeError` is thrown. -/
def mergeTypesJS : JSValue → Except String (Option String)
  | JSValue.arr l => Except.ok (mergeTypes l)
  | JSValue.num _ => Except.error "TypeError: typeArray.every is not a function"

/-- One assignment step of the data-class caching loop: for data-class
native types `types` and an assigned term `ridTerm`, either cache
`mergeTypes(types)` for a fresh term, or — when the term already has a
cached type — evaluate `mergeTypes(types.push(cached))`, where
`Array.prototype.push` returns the array's NEW LENGTH, a number.
`hm` is `hmTermToType` (values `none` model `undefined`). -/
def cacheDataClassAssignment (hm : List (String × Option String)) (types : List String)
    (ridTerm : String) : Except String (List (String × Option String)) :=
  match findVal ridTerm hm with
  | some _ =>
    match mergeTypesJS (JSValue.num (types.length + 1)) with
    | Except.ok merged => Except.ok (setKey ridTerm merged hm)
    | Except.error e => Except.error e
  | none =>
    match mergeTypesJS (JSValue.arr types) with
    | Except.ok merged => Except.ok (setKey ridTerm merged hm)
    | Except.error e => Except.error e

/-! ### The schema-to-asset compiler (`json-schema-open-igc.js`) -/

/-- The description handling shared by `readSchemaFromFile` and
`_translatePropertyKeys`: a description of more than 255 characters is
stored as `(description.substring(0,251) + "...", description)` — a
truncated short form plus the full long form — while anything of at most
255 characters is stored in the short form only. -/
def translateDescription (description : String) : String × Option String :=
  if description.length > 255 then
    ((description.toList.take 251).asString ++ "...", some description)
  else (description, none)

/-- The identifier-generation state of a `JSONSchemaOpenIGC` instance:
the `_id_gen` counter and the `_objectIdentitiesToIds` map. -/
structure IdState where
  idGen : Nat
  identToId : List (String × String)

/-- Decimal digits of a natural number, little-endian, via the fuel-indexed
helper (`fuel = n` always suffices since `n / 10 < n`). -/
def natDigitsAux : Nat → Nat → List Nat
  | 0, _ => []
  | _ + 1, 0 => []
  | fuel + 1, n + 1 => ((n + 1) % 10) :: natDigitsAux fuel ((n + 1) / 10)

def natDigits (n : Nat) : List Nat := natDigitsAux n n

/-- The decimal string JS produces for a natural number (`"" + n`). -/
def jsNumToString (n : Nat) : String :=
  if n = 0 then "0" else ((natDigits n).reverse.map Nat.digitChar).asString

/-- `_mapObjectToNextId`: increment `_id_gen`, build `"xt" + _id_gen`,
record it (overwriting) under the given identity string, and return it. -/
def mapObjectToNextId (st : IdState) (identity : String) : String × IdState :=
  let n := st.idGen + 1
  let internalId := "xt" ++ jsNumToString n
  (internalId, { idGen := n, identToId := setKey identity internalId st.identToId })

/-- A run of `_mapObjectToNextId` calls with the given identity strings in
call order (as performed by `readSchemaFromFile` for the namespace, path,
schema, property and array-item nodes), collecting the returned ids. -/
def runIds (st : IdState) : List String → List String × IdState
  | [] => ([], st)
  | identity :: rest =>
    let r := mapObjectToNextId st identity
    let rr := runIds r.2 rest
    (r.1 :: rr.1, rr.2)

/-! ### Helper lemmas -/

theorem mergeTypes_cons (x : String) (l : List String) :
    mergeTypes (x :: l) = if ∀ e ∈ l, e = x then some x else some "string" := by
  by_cases h : ∀ e ∈ l, e = x
  · have hall : ((x :: l).all fun e => decide ((x :: l).head? = some e)) = true := by
      simp only [List.all_eq_true, decide_eq_true_eq, List.head?_cons, Option.some_inj]
      intro e he
      rcases List.mem_cons.mp he with rfl | he
      · rfl
      · exact (h e he).symm
    unfold mergeTypes elementTheSame
    rw [if_pos hall, if_pos h]
    rfl
  · have hall : ¬ ((x :: l).all fun e => decide ((x :: l).head? = some e)) = true := by
      simp only [List.all_eq_true, decide_eq_true_eq, List.head?_cons, Option.some_inj]
      intro hc
      exact h (fun e he => (hc e (List.mem_cons_of_mem x he)).symm)
    unfold mergeTypes elementTheSame
    rw [if_neg hall, if_neg h]

/-- `mergeTypes` on a nonempty list depends only on whether all elements
coincide, which is a property of the multiset of elements. -/
theorem mergeTypes_cons_pairwise (x : String) (l : List String) :
    mergeTypes (x :: l) =
      if ∀ a ∈ x :: l, ∀ b ∈ x :: l, a = b then some x else some "string" := by
  rw [mergeTypes_cons]
  congr 1
  simp only [eq_iff_iff]
  constructor
  · intro h a ha b hb
    have hx : ∀ c ∈ x :: l, c = x := by
      intro c hc
      rcases List.mem_cons.mp hc with rfl | hc
      · rfl
      · exact h c hc
    rw [hx a ha, hx b hb]
  · intro h e he
    exact h e (List.mem_cons_of_mem x he) x (List.mem_cons_self x l)

theorem buildHasAPropsAux_keys (cfg : Config) (cache : Cache) :
    ∀ (items : List RelItem) (acc : List (String × PropVal)) (log : List String)
      (k : String),
      k ∈ (buildHasAPropsAux cfg cache acc log items).1.map Prod.fst ↔
        k ∈ acc.map Prod.fst ∨ ∃ it ∈ items, k = formatNameForJSON cfg it.name := by
  intro items
  induction items with
  | nil => intro acc log k; simp [buildHasAPropsAux]
  | cons item rest ih =>
    intro acc log k
    simp only [buildHasAPropsAux]
    rw [ih, mem_keys_setKey]
    simp only [List.mem_cons, exists_eq_or_imp]
    tauto

/-- Keys untouched by the `has_a` loop keep their binding. -/
theorem buildHasAPropsAux_frame (cfg : Config) (cache : Cache) :
    ∀ (items : List RelItem) (acc : List (String × PropVal)) (log : List String)
      (k : String), (∀ it ∈ items, k ≠ formatNameForJSON cfg it.name) →
      findVal k (buildHasAPropsAux cfg cache acc log items).1 = findVal k acc := by
  intro items
  induction items with
  | nil => intro acc log k _; rfl
  | cons item rest ih =>
    intro acc log k hk
    simp only [buildHasAPropsAux]
    rw [ih _ _ _ (fun it hit => hk it (List.mem_cons_of_mem item hit)),
      findVal_setKey_ne _ _ _ _ (hk item (List.mem_cons_self item rest))]

/-- When the formatted names of the `has_a` items are pairwise distinct,
each item's property is bound to exactly the value `hasAPropertyValue`
computes for it. -/
theorem buildHasAPropsAux_findVal (cfg : Config) (cache : Cache) :
    ∀ (items : List RelItem) (acc : List (String × PropVal)) (log : List String)
      (item : RelItem), item ∈ items →
      (items.map (fun it => formatNameForJSON cfg it.name)).Nodup →
      findVal (formatNameForJSON cfg item.name) (buildHasAPropsAux cfg cache acc log items).1
        = some (hasAPropertyValue cfg cache item).1 := by
  intro items
  induction items with
  | nil => intro acc log item h; cases h
  | cons hd rest ih =>
    intro acc log item hmem hnodup
    have hnodup' := List.nodup_cons.mp hnodup
    rcases List.mem_cons.mp hmem with rfl | hmem
    · simp only [buildHasAPropsAux]
      rw [buildHasAPropsAux_frame cfg cache rest _ _ _ ?hne, findVal_setKey_self]
      case hne =>
        intro it hit heq
        apply hnodup'.1
        have hb : (fun i => formatNameForJSON cfg i.name) item
            = formatNameForJSON cfg it.name := heq
        rw [hb]
        exact List.mem_map_of_mem (fun i => formatNameForJSON cfg i.name) hit
    · simp only [buildHasAPropsAux]
      exact ih _ _ item hmem hnodup'.2

/-- Every log line produced for an item of the `has_a` loop appears in the
loop's final log. -/
theorem buildHasAPropsAux_log (cfg : Config) (cache : Cache) :
    ∀ (items : List RelItem) (acc : List (String × PropVal)) (log : List String)
      (x : String),
      (x ∈ log ∨ ∃ it ∈ items, x ∈ (hasAPropertyValue cfg cache it).2) →
      x ∈ (buildHasAPropsAux cfg cache acc log items).2 := by
  intro items
  induction items with
  | nil =>
    intro acc log x h
    rcases h with h | ⟨it, hit, _⟩
    · exact h
    · cases hit
  | cons hd rest ih =>
    intro acc log x h
    simp only [buildHasAPropsAux]
    apply ih
    rcases h with h | ⟨it, hit, hx⟩
    · exact Or.inl (List.mem_append_left _ h)
    · rcases List.mem_cons.mp hit with rfl | hit
      · exact Or.inl (List.mem_append_right _ hx)
      · exact Or.inr ⟨it, hit, hx⟩

/-- `isMultiCardinality` holds exactly when the cardinality attribute is
present and upper-cases to one of the whitelist values. -/
theorem isMultiCardinality_iff (rObj : Term) :
    isMultiCardinality rObj = true ↔
      ∃ v, rObj.cardinality = some v ∧
        (jsToUpper v = "YES" ∨ jsToUpper v = "TRUE" ∨ jsToUpper v = "Y") := by
  unfold isMultiCardinality
  cases h : rObj.cardinality with
  | none => simp
  | some v => simp [decide_eq_true_eq]

/-! ### C2 -/

/-- C2: inside the containment branch, the property emitted for a `has_a`
related term is an array-of-ref exactly when the related term resolves in
the cache and its cardinality attribute is present with a value that
upper-cases to `YES`, `TRUE` or `Y` (i.e. case-insensitively equals one of
`yes`, `true`, `y`); in every other case — other value, absent attribute,
or unresolved term — it is a direct `$ref`. -/
theorem hasAPropertyValue_array_iff (cfg : Config) (cache : Cache) (item : RelItem) :
    ((hasAPropertyValue cfg cache item).1
        = PropVal.arrayOfRef (getTermRefFromCache cfg cache item.rid).1 ↔
      ∃ rObj, findVal item.rid cache = some rObj ∧
        ∃ v, rObj.cardinality = some v ∧
          (jsToUpper v = "YES" ∨ jsToUpper v = "TRUE" ∨ jsToUpper v = "Y")) ∧
    ((¬ ∃ rObj, findVal item.rid cache = some rObj ∧
        ∃ v, rObj.cardinality = some v ∧
          (jsToUpper v = "YES" ∨ jsToUpper v = "TRUE" ∨ jsToUpper v = "Y")) →
      (hasAPropertyValue cfg cache item).1
        = PropVal.ref (getTermRefFromCache cfg cache item.rid).1) := by
  cases hc : findVal item.rid cache with
  | none =>
    have hg : getTermFromCache cache item.rid
        = (none, ["ERROR: Unable to find in cache -- " ++ item.rid]) := by
      unfold getTermFromCache; rw [hc]
    constructor
    · constructor
      · intro h
        simp [hasAPropertyValue, getTermRefFromCache, hg] at h
      · rintro ⟨rObj, hr, _⟩
        cases hr
    · intro _
      simp [hasAPropertyValue, getTermRefFromCache, hg]
  | some o =>
    have hg : getTermFromCache cache item.rid = (some o, []) := by
      unfold getTermFromCache; rw [hc]
    by_cases hm : isMultiCardinality o = true
    · constructor
      · constructor
        · intro _
          exact ⟨o, rfl, (isMultiCardinality_iff o).mp hm⟩
        · intro _
          simp [hasAPropertyValue, getTermRefFromCache, hg, hm]
      · intro hnot
        exact absurd ⟨o, rfl, (isMultiCardinality_iff o).mp hm⟩ hnot
    · have hm' : isMultiCardinality o = false := by
        exact Bool.not_eq_true _ ▸ Bool.of_not_eq_true hm
      constructor
      · constructor
        · intro h
          simp [hasAPropertyValue, getTermRefFromCache, hg, hm'] at h
        · rintro ⟨rObj, hr, hcond⟩
          injection hr with hr
          subst hr
          exact absurd ((isMultiCardinality_iff o).mpr hcond) hm
      · intro _
        simp [hasAPropertyValue, getTermRefFromCache, hg, hm']

/-- C2 witness: with the cardinality attribute set to `"Yes"` an
array-of-ref is emitted; with it absent a direct ref is emitted. -/
theorem hasAPropertyValue_array_iff_witness :
    (hasAPropertyValue ⟨"ns", "dir", fun s => s⟩
        [("r1", ⟨"r1", "Part", [], "", "", [], [], [], [], [], some "Yes"⟩)]
        ⟨"r1", "Part"⟩).1
      = PropVal.arrayOfRef (getTermRefFromCache ⟨"ns", "dir", fun s => s⟩
          [("r1", ⟨"r1", "Part", [], "", "", [], [], [], [], [], some "Yes"⟩)] "r1").1 ∧
    (hasAPropertyValue ⟨"ns", "dir", fun s => s⟩
        [("r1", ⟨"r1", "Part", [], "", "", [], [], [], [], [], none⟩)]
        ⟨"r1", "Part"⟩).1
      = PropVal.ref (getTermRefFromCache ⟨"ns", "dir", fun s => s⟩
          [("r1", ⟨"r1", "Part", [], "", "", [], [], [], [], [], none⟩)] "r1").1 := by
  constructor
  · exact (hasAPropertyValue_array_iff _ _ _).1.mpr
      ⟨⟨"r1", "Part", [], "", "", [], [], [], [], [], some "Yes"⟩,
        by simp [findVal], "Yes", rfl, by decide⟩
  · exact (hasAPropertyValue_array_iff _ _ _).2
      (by
        rintro ⟨rObj, hr, v, hv, _⟩
        simp [findVal] at hr
        subst hr
        cases hv)

/-! ### Unfolding lemmas for `defineSchemaForTerm` and `schemaForTerm` -/

theorem defineSchemaForTerm_skip (cfg : Config) (cache : Cache)
    (termToType : List (String × String)) (st : RunState) (term : Term)
    (h : term.rid ∈ st.processed) :
    defineSchemaForTerm cfg cache termToType st term = st := by
  simp only [defineSchemaForTerm]
  rw [if_pos h]

theorem defineSchemaForTerm_eq (cfg : Config) (cache : Cache)
    (termToType : List (String × String)) (st : RunState) (term : Term)
    (h : term.rid ∉ st.processed) :
    defineSchemaForTerm cfg cache termToType st term =
      { processed := st.processed ++ [term.rid]
        nameClash := st.nameClash ++ [formatNameForJSON cfg term.name]
        files := setKey (getSchemaFileFromId cfg (jsonSchemaId cfg term))
          (schemaForTerm cfg cache termToType term).1 st.files
        sidecarFiles := setKey (getSchemaFileFromId cfg (jsonSchemaId cfg term) ++ ".igc")
          { schema := jsonSchemaId cfg term, identity := getIdentityForTerm term,
            rid := term.rid, shortDescription := term.shortDescription,
            longDescription := term.longDescription } st.sidecarFiles
        log := st.log ++
          (if formatNameForJSON cfg term.name ∈ st.nameClash then
            ["WARNING: found non-unique term name --> " ++ formatNameForJSON cfg term.name
              ++ " <-- while processing schema "
              ++ getDefnPathFromCategoryPath cfg term.categoryPath ++ "/"
              ++ formatNameForJSON cfg term.name ++ " (" ++ term.rid ++ ")"]
          else []) ++
          (schemaForTerm cfg cache termToType term).2 } := by
  simp only [defineSchemaForTerm, jsonSchemaId]
  rw [if_neg h]

theorem schemaForTerm_hasA (cfg : Config) (cache : Cache)
    (termToType : List (String × String)) (term : Term) (h : term.hasA ≠ []) :
    (schemaForTerm cfg cache termToType term).1.type = some "object" ∧
    (schemaForTerm cfg cache termToType term).1.enum = none ∧
    (schemaForTerm cfg cache termToType term).1.properties
      = some (buildHasAProps cfg cache term.hasA).1 ∧
    (schemaForTerm cfg cache termToType term).2 = (buildHasAProps cfg cache term.hasA).2 ∧
    (schemaForTerm cfg cache termToType term).1.id = jsonSchemaId cfg term := by
  have hlen : term.hasA.length > 0 := List.length_pos.mpr h
  simp only [schemaForTerm]
  rw [if_pos hlen]
  by_cases ha : term.assignedTerms.length > 0
  · rw [if_pos ha]
    exact ⟨rfl, rfl, rfl, rfl, rfl⟩
  · rw [if_neg ha]
    exact ⟨rfl, rfl, rfl, rfl, rfl⟩

theorem setJSONSchemaTypeFromIGCType_spec (s : SchemaDoc) (ty : String) :
    (setJSONSchemaTypeFromIGCType s ty).type = some (igcTypeToJSON ty).1 ∧
    (s.format = none → (setJSONSchemaTypeFromIGCType s ty).format = (igcTypeToJSON ty).2) ∧
    (setJSONSchemaTypeFromIGCType s ty).enum = s.enum ∧
    (setJSONSchemaTypeFromIGCType s ty).properties = s.properties ∧
    (setJSONSchemaTypeFromIGCType s ty).id = s.id := by
  unfold setJSONSchemaTypeFromIGCType igcTypeToJSON
  by_cases h1 : ty = "date"
  · rw [if_pos h1, if_pos h1]
    exact ⟨rfl, fun _ => rfl, rfl, rfl, rfl⟩
  · rw [if_neg h1, if_neg h1]
    by_cases h2 : ty = "timestamp"
    · rw [if_pos h2, if_pos h2]
      exact ⟨rfl, fun _ => rfl, rfl, rfl, rfl⟩
    · rw [if_neg h2, if_neg h2]
      by_cases h3 : ty = "numeric"
      · rw [if_pos h3, if_pos h3]
        exact ⟨rfl, fun hf => hf, rfl, rfl, rfl⟩
      · rw [if_neg h3, if_neg h3]
        exact ⟨rfl, fun hf => hf, rfl, rfl, rfl⟩

theorem schemaForTerm_enum (cfg : Config) (cache : Cache)
    (termToType : List (String × String)) (term : Term)
    (h1 : term.hasA = []) (h2 : term.hasTypes ≠ []) :
    (schemaForTerm cfg cache termToType term).1 =
      setJSONSchemaTypeFromIGCType
        { id := jsonSchemaId cfg term, title := formatNameForJSON cfg term.name,
          description := getSingularDescription term,
          enum := some (term.hasTypes.map (·.name)),
          xRelationObject := term.assignedTerms.length > 0 }
        ((findVal term.rid termToType).getD "string") ∧
    (schemaForTerm cfg cache termToType term).2 = [] := by
  have hlen : ¬ term.hasA.length > 0 := by simp [h1]
  have hlen2 : term.hasTypes.length > 0 := List.length_pos.mpr h2
  simp only [schemaForTerm]
  rw [if_neg hlen, if_pos hlen2]
  have hx : ∀ s : SchemaDoc, ∀ ty : String,
      { setJSONSchemaTypeFromIGCType s ty with xRelationObject := true }
        = setJSONSchemaTypeFromIGCType { s with xRelationObject := true } ty := by
    intro s ty
    unfold setJSONSchemaTypeFromIGCType
    by_cases h1 : ty = "date"
    · simp [h1]
    · by_cases h2 : ty = "timestamp"
      · simp [h1, h2]
      · by_cases h3 : ty = "numeric"
        · simp [h1, h2, h3]
        · simp [h1, h2, h3]
  cases hft : findVal term.rid termToType with
  | none =>
    by_cases ha : term.assignedTerms.length > 0
    · rw [if_pos ha]
      refine ⟨?_, rfl⟩
      simp only [hx]
      simp [ha, Option.getD]
    · rw [if_neg ha]
      refine ⟨?_, rfl⟩
      have : decide (term.assignedTerms.length > 0) = false := by
        simpa using ha
      simp [ha, Option.getD, eq_false_intro ha]
  | some ty =>
    by_cases ha : term.assignedTerms.length > 0
    · rw [if_pos ha]
      refine ⟨?_, rfl⟩
      simp only [hx]
      simp [ha, Option.getD]
    · rw [if_neg ha]
      refine ⟨?_, rfl⟩
      simp [ha, Option.getD, eq_false_intro ha]

theorem schemaForTerm_default (cfg : Config) (cache : Cache)
    (termToType : List (String × String)) (term : Term)
    (h1 : term.hasA = []) (h2 : term.hasTypes = []) :
    (schemaForTerm cfg cache termToType term).1 =
      setJSONSchemaTypeFromIGCType
        { id := jsonSchemaId cfg term, title := formatNameForJSON cfg term.name,
          description := getSingularDescription term,
          xRelationObject := term.assignedTerms.length > 0 }
        ((findVal term.rid termToType).getD "string") ∧
    (schemaForTerm cfg cache termToType term).2 = [] := by
  have hlen : ¬ term.hasA.length > 0 := by simp [h1]
  have hlen2 : ¬ term.hasTypes.length > 0 := by simp [h2]
  simp only [schemaForTerm]
  rw [if_neg hlen, if_neg hlen2]
  have hx : ∀ s : SchemaDoc, ∀ ty : String,
      { setJSONSchemaTypeFromIGCType s ty with xRelationObject := true }
        = setJSONSchemaTypeFromIGCType { s with xRelationObject := true } ty := by
    intro s ty
    unfold setJSONSchemaTypeFromIGCType
    by_cases h1 : ty = "date"
    · simp [h1]
    · by_cases h2 : ty = "timestamp"
      · simp [h1, h2]
      · by_cases h3 : ty = "numeric"
        · simp [h1, h2, h3]
        · simp [h1, h2, h3]
  cases hft : findVal term.rid termToType with
  | none =>
    by_cases ha : term.assignedTerms.length > 0
    · rw [if_pos ha]
      refine ⟨?_, rfl⟩
      simp only [hx]
      simp [ha, Option.getD]
    · rw [if_neg ha]
      refine ⟨?_, rfl⟩
      simp [ha, Option.getD, eq_false_intro ha]
  | some ty =>
    by_cases ha : term.assignedTerms.length > 0
    · rw [if_pos ha]
      refine ⟨?_, rfl⟩
      simp only [hx]
      simp [ha, Option.getD]
    · rw [if_neg ha]
      refine ⟨?_, rfl⟩
      simp [ha, Option.getD, eq_false_intro ha]

/-! ### `lastSegment` characterization -/

theorem splitChars_ne_nil (p : Char → Bool) : ∀ l : List Char, splitChars p l ≠ [] := by
  intro l
  induction l with
  | nil => simp [splitChars]
  | cons c rest ih =>
    simp only [splitChars]
    by_cases hc : p c
    · simp [hc]
    · simp only [if_neg hc]
      cases hr : splitChars p rest with
      | nil => simp
      | cons s ss => simp

theorem splitChars_append_sep (p : Char → Bool) (c : Char) (hc : p c = true) :
    ∀ (xs ys : List Char),
      (splitChars p (xs ++ c :: ys)).getLastD [] = (splitChars p ys).getLastD [] ∧
      (splitChars p (xs ++ c :: ys)).length ≥ 2 := by
  intro xs
  induction xs with
  | nil =>
    intro ys
    simp only [List.nil_append, splitChars, hc, if_pos]
    refine ⟨List.getLastD_cons _ _ _, ?_⟩
    have := List.length_pos.mpr (splitChars_ne_nil p ys)
    simp only [List.length_cons]
    omega
  | cons x xs ih =>
    intro ys
    obtain ⟨ihl, ihlen⟩ := ih ys
    simp only [List.cons_append, splitChars]
    by_cases hx : p x
    · simp only [if_pos hx]
      refine ⟨?_, ?_⟩
      · rw [List.getLastD_cons]
        exact ihl
      · exact Nat.le_succ_of_le ihlen
    · simp only [if_neg hx]
      cases hr : splitChars p (xs ++ c :: ys) with
      | nil => exact absurd hr (splitChars_ne_nil p _)
      | cons s ss =>
        rw [hr] at ihl ihlen
        have hss : ss ≠ [] := by
          intro h
          rw [h] at ihlen
          simp at ihlen
        obtain ⟨y, hy⟩ := Option.isSome_iff_exists.mp (List.getLast?_isSome.mpr hss)
        refine ⟨?_, ?_⟩
        · rw [List.getLastD_cons] at ihl ⊢
          rw [List.getLastD_eq_getLast?, hy] at ihl ⊢
          rw [← ihl]
          rfl
        · simp only [List.length_cons] at ihlen ⊢
          omega

theorem splitChars_no_sep (p : Char → Bool) :
    ∀ l : List Char, (∀ c ∈ l, p c = false) → splitChars p l = [l] := by
  intro l
  induction l with
  | nil => intro _; rfl
  | cons c rest ih =>
    intro h
    have hc : p c = false := h c (List.mem_cons_self c rest)
    simp only [splitChars, hc]
    rw [ih (fun d hd => h d (List.mem_cons_of_mem c hd))]
    simp

/-- The last segment of `a ++ "/" ++ b` is `b` itself whenever `b` contains
no path separator. -/
theorem lastSegment_append (a b : String)
    (hb : ∀ c ∈ b.toList, ¬(c = '/' ∨ c = '\\')) :
    lastSegment (a ++ "/" ++ b) = b := by
  unfold lastSegment
  have hdata : (a ++ "/" ++ b).toList = a.toList ++ '/' :: b.toList := by
    show (a ++ "/" ++ b).data = a.data ++ '/' :: b.data
    rw [String.data_append, String.data_append, List.append_assoc]
    rfl
  rw [hdata]
  rw [(splitChars_append_sep (fun c => c = '/' ∨ c = '\\') '/' (by decide) a.toList b.toList).1]
  rw [splitChars_no_sep _ b.toList (fun c hcm => by simpa using hb c hcm)]
  rw [List.getLastD_cons]
  exact String.asString_toList b

/-- The schema document's `id` is always the term's full `jsonSchemaId`. -/
theorem schemaForTerm_id (cfg : Config) (cache : Cache)
    (termToType : List (String × String)) (term : Term) :
    (schemaForTerm cfg cache termToType term).1.id = jsonSchemaId cfg term := by
  by_cases hA : term.hasA = []
  · by_cases hT : term.hasTypes = []
    · rw [(schemaForTerm_default cfg cache termToType term hA hT).1]
      exact (setJSONSchemaTypeFromIGCType_spec _ _).2.2.2.2
    · rw [(schemaForTerm_enum cfg cache termToType term hA hT).1]
      exact (setJSONSchemaTypeFromIGCType_spec _ _).2.2.2.2
  · exact (schemaForTerm_hasA cfg cache termToType term hA).2.2.2.2

/-- Shared concrete fixtures for counterexamples and witnesses: an
identity `camelcase` stand-in, an empty run state, and a term with a
dangling `has_a` relation. -/
def cfg0 : Config := ⟨"ns", "dir", fun s => s⟩

def st0 : RunState := ⟨[], [], [], [], []⟩

def termMissingRef : Term :=
  ⟨"t1", "Thing", [], "", "", [], [], [⟨"missing", "Part"⟩], [], [], none⟩

/-! ### C1 -/

/-- C1: for every unprocessed term exactly one of three document shapes is
emitted, first match wins: with `has_a` edges the document is
`type=object` with one property per contained term (each contained term's
formatted name is a key, and every key comes from a contained term); else
with `has_types` edges it is an enum of every child's display name plus a
base primitive type resolved from the term-to-type cache (default
`string`); else a bare primitive from the cache, so with no containment
edges, no taxonomy edges and no cached type it resolves to
`type="string"`. -/
theorem defineSchemaForTerm_shape (cfg : Config) (cache : Cache)
    (termToType : List (String × String)) (st : RunState) (term : Term)
    (hproc : term.rid ∉ st.processed) :
    ∃ doc, findVal (getSchemaFileFromId cfg (jsonSchemaId cfg term))
        (defineSchemaForTerm cfg cache termToType st term).files = some doc ∧
      (term.hasA ≠ [] →
        doc.type = some "object" ∧ doc.enum = none ∧
        ∃ props, doc.properties = some props ∧
          (∀ it ∈ term.hasA, formatNameForJSON cfg it.name ∈ props.map Prod.fst) ∧
          (∀ k ∈ props.map Prod.fst, ∃ it ∈ term.hasA,
            k = formatNameForJSON cfg it.name)) ∧
      (term.hasA = [] → term.hasTypes ≠ [] →
        doc.enum = some (term.hasTypes.map (·.name)) ∧
        doc.properties = none ∧
        doc.type = some (igcTypeToJSON ((findVal term.rid termToType).getD "string")).1 ∧
        doc.format = (igcTypeToJSON ((findVal term.rid termToType).getD "string")).2 ∧
        (findVal term.rid termToType = none → doc.type = some "string")) ∧
      (term.hasA = [] → term.hasTypes = [] →
        doc.enum = none ∧ doc.properties = none ∧
        doc.type = some (igcTypeToJSON ((findVal term.rid termToType).getD "string")).1 ∧
        doc.format = (igcTypeToJSON ((findVal term.rid termToType).getD "string")).2 ∧
        (findVal term.rid termToType = none →
          doc.type = some "string" ∧ doc.format = none)) := by
  rw [defineSchemaForTerm_eq cfg cache termToType st term hproc]
  refine ⟨(schemaForTerm cfg cache termToType term).1, findVal_setKey_self _ _ _, ?_, ?_, ?_⟩
  · intro hA
    obtain ⟨htype, henum, hprops, _, _⟩ := schemaForTerm_hasA cfg cache termToType term hA
    refine ⟨htype, henum, (buildHasAProps cfg cache term.hasA).1, hprops, ?_, ?_⟩
    · intro it hit
      have := buildHasAPropsAux_keys cfg cache term.hasA [] []
        (formatNameForJSON cfg it.name)
      exact this.mpr (Or.inr ⟨it, hit, rfl⟩)
    · intro k hk
      have := (buildHasAPropsAux_keys cfg cache term.hasA [] [] k).mp hk
      rcases this with h | h
      · cases h
      · exact h
  · intro hA hT
    obtain ⟨hdoc, _⟩ := schemaForTerm_enum cfg cache termToType term hA hT
    rw [hdoc]
    obtain ⟨htype, hfmt, henum, hprops, _⟩ :=
      setJSONSchemaTypeFromIGCType_spec
        { id := jsonSchemaId cfg term, title := formatNameForJSON cfg term.name,
          description := getSingularDescription term,
          enum := some (term.hasTypes.map (·.name)),
          xRelationObject := term.assignedTerms.length > 0 }
        ((findVal term.rid termToType).getD "string")
    refine ⟨henum, hprops, htype, hfmt rfl, ?_⟩
    intro hmiss
    rw [htype, hmiss]
    rfl
  · intro hA hT
    obtain ⟨hdoc, _⟩ := schemaForTerm_default cfg cache termToType term hA hT
    rw [hdoc]
    obtain ⟨htype, hfmt, henum, hprops, _⟩ :=
      setJSONSchemaTypeFromIGCType_spec
        { id := jsonSchemaId cfg term, title := formatNameForJSON cfg term.name,
          description := getSingularDescription term,
          xRelationObject := term.assignedTerms.length > 0 }
        ((findVal term.rid termToType).getD "string")
    refine ⟨henum, hprops, htype, hfmt rfl, ?_⟩
    intro hmiss
    constructor
    · rw [htype, hmiss]
      rfl
    · rw [hfmt rfl, hmiss]
      rfl

/-- A term with no relationships at all (C1's boundary case). -/
def termPlain : Term := ⟨"t2", "Leaf", [], "", "", [], [], [], [], [], none⟩

/-- C1 witness: the boundary term with no containment edges, no taxonomy
edges and no cached data type is emitted as a bare `{type: "string"}`. -/
theorem defineSchemaForTerm_shape_witness :
    ((findVal (getSchemaFileFromId cfg0 (jsonSchemaId cfg0 termPlain))
        (defineSchemaForTerm cfg0 [] [] st0 termPlain).files).map
      (fun d => (d.type, d.format, d.enum, d.properties.isSome)))
      = some (some "string", none, none, false) := by
  have hp : termPlain.rid ∉ st0.processed := by simp [st0, termPlain]
  obtain ⟨doc, hdoc, h⟩ :=
    defineSchemaForTerm_shape cfg0 ([] : Cache) ([] : List (String × String)) st0 termPlain hp
  obtain ⟨henum, hprops, _htype, _hfmt, hdef⟩ := h.2.2 rfl rfl
  rw [hdoc]
  simp [(hdef rfl).1, (hdef rfl).2, henum, hprops]

/-! ### C7 -/

/-- C7 (amended): resolving a related term absent from the cache never
fails — `getTermFromCache` logs an `ERROR` line and returns `null` — but
the caller does NOT omit the `$ref` entry: the emitted document contains
the property with a null reference (`{"$ref": null}`).  Stated for any
run configuration, any term with such a dangling `has_a` item (formatted
property names assumed distinct so the property is identifiable). -/
theorem missingRef_null_and_warn (cfg : Config) (cache : Cache)
    (termToType : List (String × String)) (st : RunState) (term : Term) (item : RelItem)
    (hmem : item ∈ term.hasA)
    (hmiss : findVal item.rid cache = none)
    (hproc : term.rid ∉ st.processed)
    (hnodup : (term.hasA.map (fun it => formatNameForJSON cfg it.name)).Nodup) :
    getTermFromCache cache item.rid
      = (none, ["ERROR: Unable to find in cache -- " ++ item.rid]) ∧
    (hasAPropertyValue cfg cache item).1 = PropVal.ref none ∧
    ("ERROR: Unable to find in cache -- " ++ item.rid)
      ∈ (defineSchemaForTerm cfg cache termToType st term).log ∧
    ((findVal (getSchemaFileFromId cfg (jsonSchemaId cfg term))
        (defineSchemaForTerm cfg cache termToType st term).files).bind
      (fun d => findVal (formatNameForJSON cfg item.name) (d.properties.getD [])))
      = some (PropVal.ref none) := by
  have hg : getTermFromCache cache item.rid
      = (none, ["ERROR: Unable to find in cache -- " ++ item.rid]) := by
    unfold getTermFromCache
    rw [hmiss]
  have hval : hasAPropertyValue cfg cache item
      = (PropVal.ref none,
        ["ERROR: Unable to find in cache -- " ++ item.rid]
          ++ ["ERROR: Unable to find in cache -- " ++ item.rid]) := by
    simp [hasAPropertyValue, getTermRefFromCache, hg]
  have hne : term.hasA ≠ [] := by
    intro hnil
    rw [hnil] at hmem
    cases hmem
  obtain ⟨htype, henum, hprops, hlog, hid⟩ := schemaForTerm_hasA cfg cache termToType term hne
  rw [defineSchemaForTerm_eq cfg cache termToType st term hproc]
  refine ⟨hg, by rw [hval], ?_, ?_⟩
  · show _ ∈ _ ++ _ ++ _
    apply List.mem_append_right
    rw [hlog]
    apply buildHasAPropsAux_log
    refine Or.inr ⟨item, hmem, ?_⟩
    rw [hval]
    exact List.mem_append_left _ (List.mem_singleton.mpr rfl)
  · show ((findVal (getSchemaFileFromId cfg (jsonSchemaId cfg term))
        (setKey (getSchemaFileFromId cfg (jsonSchemaId cfg term)) _ st.files)).bind _) = _
    rw [findVal_setKey_self]
    show findVal (formatNameForJSON cfg item.name)
        (((schemaForTerm cfg cache termToType term).1.properties).getD []) = _
    rw [hprops]
    show findVal (formatNameForJSON cfg item.name) (buildHasAProps cfg cache term.hasA).1 = _
    unfold buildHasAProps
    rw [buildHasAPropsAux_findVal cfg cache term.hasA [] [] item hmem hnodup, hval]

/-- C7 counterexample: for a concrete term whose single `has_a` relation
points at a RID absent from the cache, the emitted document's `properties`
CONTAINS the entry `"Part" -> {"$ref": null}` — the `$ref` is written as a
null reference, not omitted as the claim states. -/
theorem missingRef_emits_null_cex :
    ((findVal (getSchemaFileFromId cfg0 (jsonSchemaId cfg0 termMissingRef))
        (defineSchemaForTerm cfg0 [] [] st0 termMissingRef).files).bind
      (fun d => findVal "Part" (d.properties.getD []))) = some (PropVal.ref none) ∧
    "ERROR: Unable to find in cache -- missing"
      ∈ (defineSchemaForTerm cfg0 [] [] st0 termMissingRef).log := by
  constructor
  · rfl
  · have hlog : (defineSchemaForTerm cfg0 [] [] st0 termMissingRef).log
        = ["ERROR: Unable to find in cache -- missing",
           "ERROR: Unable to find in cache -- missing"] := rfl
    rw [hlog]
    exact List.mem_cons_self _ _

/-- C7 witness for the amended theorem at the concrete fixtures. -/
theorem missingRef_null_and_warn_witness :
    (hasAPropertyValue cfg0 [] ⟨"missing", "Part"⟩).1 = PropVal.ref none ∧
    ("ERROR: Unable to find in cache -- " ++ "missing")
      ∈ (defineSchemaForTerm cfg0 [] [] st0 termMissingRef).log := by
  have h := missingRef_null_and_warn cfg0 [] [] st0 termMissingRef ⟨"missing", "Part"⟩
    (List.mem_singleton.mpr rfl) rfl (by decide) (by decide)
  exact ⟨h.2.1, h.2.2.1⟩

/-! ### C4 -/

/-- C4 (amended): when two distinct terms format to the same name, the
advisory warning IS logged and both terms are processed and written with
their own `id` fields, but because the output filename is derived from the
formatted name alone, both writes target the same file: the second write
overwrites the first, whose document is lost from the output directory.
(The formatted name is assumed free of path separators, as `camelcase`
output is.) -/
theorem nameClash_lastWriterWins (cfg : Config) (cache : Cache)
    (termToType : List (String × String)) (st : RunState) (t1 t2 : Term)
    (hrid : t1.rid ≠ t2.rid)
    (hname : formatNameForJSON cfg t1.name = formatNameForJSON cfg t2.name)
    (h1 : t1.rid ∉ st.processed) (h2 : t2.rid ∉ st.processed)
    (hclean : ∀ c ∈ (formatNameForJSON cfg t2.name).toList, ¬(c = '/' ∨ c = '\\')) :
    ("WARNING: found non-unique term name --> " ++ formatNameForJSON cfg t2.name
        ++ " <-- while processing schema "
        ++ getDefnPathFromCategoryPath cfg t2.categoryPath ++ "/"
        ++ formatNameForJSON cfg t2.name ++ " (" ++ t2.rid ++ ")")
      ∈ (defineSchemaForTerm cfg cache termToType
          (defineSchemaForTerm cfg cache termToType st t1) t2).log ∧
    (defineSchemaForTerm cfg cache termToType
        (defineSchemaForTerm cfg cache termToType st t1) t2).processed
      = st.processed ++ [t1.rid] ++ [t2.rid] ∧
    getSchemaFileFromId cfg (jsonSchemaId cfg t1)
      = getSchemaFileFromId cfg (jsonSchemaId cfg t2) ∧
    findVal (getSchemaFileFromId cfg (jsonSchemaId cfg t2))
        (defineSchemaForTerm cfg cache termToType
          (defineSchemaForTerm cfg cache termToType st t1) t2).files
      = some (schemaForTerm cfg cache termToType t2).1 ∧
    (schemaForTerm cfg cache termToType t2).1.id = jsonSchemaId cfg t2 := by
  have hclean1 : ∀ c ∈ (formatNameForJSON cfg t1.name).toList, ¬(c = '/' ∨ c = '\\') := by
    rw [hname]
    exact hclean
  have e1 := defineSchemaForTerm_eq cfg cache termToType st t1 h1
  have hp2 : t2.rid ∉ (defineSchemaForTerm cfg cache termToType st t1).processed := by
    rw [e1]
    intro hmem
    rcases List.mem_append.mp hmem with h | h
    · exact h2 h
    · exact hrid (List.mem_singleton.mp h).symm
  have e2 := defineSchemaForTerm_eq cfg cache termToType
    (defineSchemaForTerm cfg cache termToType st t1) t2 hp2
  have hfe : getSchemaFileFromId cfg (jsonSchemaId cfg t1)
      = getSchemaFileFromId cfg (jsonSchemaId cfg t2) := by
    unfold getSchemaFileFromId jsonSchemaId
    rw [lastSegment_append _ _ hclean1, lastSegment_append _ _ hclean, hname]
  refine ⟨?_, ?_, hfe, ?_, schemaForTerm_id cfg cache termToType t2⟩
  · rw [e2]
    show _ ∈ _ ++ _ ++ _
    apply List.mem_append_left
    apply List.mem_append_right
    have hcond : formatNameForJSON cfg t2.name
        ∈ (defineSchemaForTerm cfg cache termToType st t1).nameClash := by
      rw [e1]
      apply List.mem_append_right
      exact List.mem_singleton.mpr hname.symm
    rw [if_pos hcond]
    exact List.mem_singleton.mpr rfl
  · rw [e2, e1]
  · rw [e2]
    exact findVal_setKey_self _ _ _

/-- Two distinct terms in different categories sharing the display name
`Item`. -/
def t1cex : Term := ⟨"r1", "Item", [⟨"c1", "CatA"⟩], "", "", [], [], [], [], [], none⟩

def t2cex : Term := ⟨"r2", "Item", [⟨"c2", "CatB"⟩], "", "", [], [], [], [], [], none⟩

/-- C4 counterexample: processing the two `Item` terms leaves exactly ONE
schema file in the output directory — `dir/Item.json`, holding the second
term's document (`id = ns/CatB/Item`) — even though the two documents have
distinct full identifiers.  The first document has been overwritten, so
the claim that neither document is lost or overwritten is false. -/
theorem nameClash_overwrite_cex :
    ((defineSchemaForTerm cfg0 [] []
        (defineSchemaForTerm cfg0 [] [] st0 t1cex) t2cex).files.map Prod.fst)
      = ["dir/Item.json"] ∧
    ((findVal "dir/Item.json"
        (defineSchemaForTerm cfg0 [] []
          (defineSchemaForTerm cfg0 [] [] st0 t1cex) t2cex).files).map SchemaDoc.id)
      = some "ns/CatB/Item" ∧
    jsonSchemaId cfg0 t1cex ≠ jsonSchemaId cfg0 t2cex := by
  refine ⟨rfl, rfl, by decide⟩

/-- C4 witness for the amended theorem at the concrete `Item` terms. -/
theorem nameClash_lastWriterWins_witness :
    ("WARNING: found non-unique term name --> " ++ formatNameForJSON cfg0 t2cex.name
        ++ " <-- while processing schema "
        ++ getDefnPathFromCategoryPath cfg0 t2cex.categoryPath ++ "/"
        ++ formatNameForJSON cfg0 t2cex.name ++ " (" ++ t2cex.rid ++ ")")
      ∈ (defineSchemaForTerm cfg0 [] []
          (defineSchemaForTerm cfg0 [] [] st0 t1cex) t2cex).log ∧
    (defineSchemaForTerm cfg0 [] []
        (defineSchemaForTerm cfg0 [] [] st0 t1cex) t2cex).processed
      = st0.processed ++ [t1cex.rid] ++ [t2cex.rid] ∧
    getSchemaFileFromId cfg0 (jsonSchemaId cfg0 t1cex)
      = getSchemaFileFromId cfg0 (jsonSchemaId cfg0 t2cex) := by
  have h := nameClash_lastWriterWins cfg0 ([] : Cache) ([] : List (String × String))
    st0 t1cex t2cex (by decide) rfl (by decide) (by decide) (by decide)
  exact ⟨h.1, h.2.1, h.2.2.1⟩

/-! ### C5 -/

/-- C5: `mergeTypes` returns the first element when every element equals
the first, and `"string"` otherwise; it is invariant under permutation of
its input, and merging a merge result again yields the same value. -/
theorem mergeTypes_spec :
    (∀ (x : String) (l : List String), (∀ e ∈ l, e = x) → mergeTypes (x :: l) = some x) ∧
    (∀ (x : String) (l : List String), (∃ e ∈ l, e ≠ x) →
      mergeTypes (x :: l) = some "string") ∧
    (∀ l₁ l₂ : List String, l₁.Perm l₂ → mergeTypes l₁ = mergeTypes l₂) ∧
    (∀ (l : List String) (r : String), mergeTypes l = some r → mergeTypes [r] = some r) := by
  refine ⟨?_, ?_, ?_, ?_⟩
  · intro x l h
    rw [mergeTypes_cons, if_pos h]
  · intro x l h
    rw [mergeTypes_cons, if_neg]
    intro hc
    obtain ⟨e, he, hne⟩ := h
    exact hne (hc e he)
  · intro l₁ l₂ hp
    cases l₁ with
    | nil =>
      rw [← hp.nil_eq]
    | cons x t =>
      cases l₂ with
      | nil => exact absurd hp.symm.nil_eq (Ne.symm (List.cons_ne_nil x t))
      | cons y s =>
        rw [mergeTypes_cons_pairwise, mergeTypes_cons_pairwise]
        have hmem : ∀ e, e ∈ x :: t ↔ e ∈ y :: s := fun e => hp.mem_iff
        by_cases h : ∀ a ∈ x :: t, ∀ b ∈ x :: t, a = b
        · have h₂ : ∀ a ∈ y :: s, ∀ b ∈ y :: s, a = b := fun a ha b hb =>
            h a ((hmem a).mpr ha) b ((hmem b).mpr hb)
          have hxy : x = y :=
            h₂ x ((hmem x).mp (List.mem_cons_self x t)) y (List.mem_cons_self y s)
          rw [if_pos h, if_pos h₂, hxy]
        · have h₂ : ¬ ∀ a ∈ y :: s, ∀ b ∈ y :: s, a = b := fun hc =>
            h (fun a ha b hb => hc a ((hmem a).mp ha) b ((hmem b).mp hb))
          rw [if_neg h, if_neg h₂]
  · intro l r _
    rw [mergeTypes_cons, if_pos (by intro e he; cases he)]

/-- C5 witness: concrete merges through the theorem. -/
theorem mergeTypes_spec_witness :
    mergeTypes ["int", "int"] = some "int" ∧
    mergeTypes ["int", "string"] = some "string" ∧
    mergeTypes ["string", "int"] = some "string" ∧
    mergeTypes [("int" : String)] = some "int" := by
  refine ⟨?_, ?_, ?_, ?_⟩
  · exact mergeTypes_spec.1 "int" ["int"] (by decide)
  · exact mergeTypes_spec.2.1 "int" ["string"] ⟨"string", by decide, by decide⟩
  · exact mergeTypes_spec.2.1 "string" ["int"] ⟨"int", by decide, by decide⟩
  · exact mergeTypes_spec.2.2.2 ["int"] "int" (mergeTypes_spec.1 "int" [] (by decide))

/-! ### C6 -/

/-- C6: the claim says merging a later data class's type hints with a
previously cached type succeeds; in the code the cached branch evaluates
`mergeTypes(types.push(hmTermToType[ridTerm]))`, and `Array.prototype.push`
returns the array's new length — a number — so `typeArray.every` throws a
`TypeError`.  Evaluating the embedded step at a term that already has a
cached type (the failing input) produces exactly that error. -/
theorem cacheDataClassAssignment_type_error :
    cacheDataClassAssignment [("termA", some "string")] ["string"] "termA"
      = Except.error "TypeError: typeArray.every is not a function" := rfl

/-! ### C9 -/

/-- C9: a description strictly longer than 255 characters is stored as the
first 251 characters plus `"..."` (254 characters in total) in the short
form together with the full text in the long form; a description of at
most 255 characters (in particular exactly 255) is stored unsplit in the
short form only. -/
theorem translateDescription_split :
    (∀ s : String, 255 < s.length →
      translateDescription s = ((s.toList.take 251).asString ++ "...", some s) ∧
      (translateDescription s).1.length = 254) ∧
    (∀ s : String, s.length ≤ 255 → translateDescription s = (s, none)) := by
  constructor
  · intro s h
    have heq : translateDescription s = ((s.toList.take 251).asString ++ "...", some s) := by
      unfold translateDescription
      rw [if_pos h]
    refine ⟨heq, ?_⟩
    rw [heq]
    have hlen : s.toList.length = s.length := rfl
    have htake : (s.toList.take 251).length = 251 := by
      rw [List.length_take, hlen]
      omega
    show ((s.toList.take 251).asString ++ "...").length = 254
    rw [String.length_append, List.length_asString, htake]
    rfl
  · intro s h
    unfold translateDescription
    rw [if_neg (by omega)]

/-- C9 witness: a 256-character description is split into a 254-character
short form plus the full long form; a 255-character one is not split. -/
theorem translateDescription_split_witness :
    translateDescription (List.replicate 256 'a').asString
      = ((List.replicate 251 'a').asString ++ "...", some (List.replicate 256 'a').asString) ∧
    (translateDescription (List.replicate 256 'a').asString).1.length = 254 ∧
    translateDescription (List.replicate 255 'a').asString
      = ((List.replicate 255 'a').asString, none) := by
  have hlen256 : (List.replicate 256 'a').asString.length = 256 := by
    rw [List.length_asString, List.length_replicate]
  have hlen255 : (List.replicate 255 'a').asString.length = 255 := by
    rw [List.length_asString, List.length_replicate]
  have h1 := translateDescription_split.1 (List.replicate 256 'a').asString
    (by rw [hlen256]; norm_num)
  have h2 := translateDescription_split.2 (List.replicate 255 'a').asString
    (by rw [hlen255])
  refine ⟨?_, h1.2, h2⟩
  rw [h1.1]
  have : (List.replicate 256 'a').asString.toList.take 251 = List.replicate 251 'a' := by
    rw [List.toList_asString, List.take_replicate]
    norm_num
  rw [this]

/-! ### C8: the traversals have no visited set -/

/-- The loop body of a traversal step (named for reasoning; `walkRel`'s
fold uses exactly this function). -/
def walkStep (sel : Term → List RelItem) (cache : Cache) (fuel : Nat) :
    Option (List String) → RelItem → Option (List String) :=
  fun acc it =>
    match acc with
    | none => none
    | some l =>
      match walkRel sel cache fuel (findVal it.rid cache) with
      | some sub => some (l ++ it.rid :: sub)
      | none => none

theorem walkRel_succ (sel : Term → List RelItem) (cache : Cache) (fuel : Nat) (t : Term) :
    walkRel sel cache (fuel + 1) (some t)
      = (sel t).foldl (walkStep sel cache fuel) (some []) := rfl

theorem walkRel_zero (sel : Term → List RelItem) (cache : Cache) (t : Term) :
    walkRel sel cache 0 (some t) = none := rfl

theorem walkRel_none (sel : Term → List RelItem) (cache : Cache) (fuel : Nat) :
    walkRel sel cache fuel none = some [] := by
  cases fuel <;> rfl

/-- A term that is its own parent and its own child: `is_a_type_of` and
`has_types` both point back at itself. -/
def cycTerm : Term :=
  ⟨"T", "Cyc", [], "", "", [⟨"T", "Cyc"⟩], [⟨"T", "Cyc"⟩], [], [], [], none⟩

def cycCache : Cache := [("T", cycTerm)]

/-- On the cyclic cache the ancestral traversal never returns, no matter
how much recursion depth is granted. -/
def ancestralDivergesOnCycle : Prop :=
  ∀ fuel, getAncestralTermsF cycCache fuel (some cycTerm) = none

/-- On the cyclic cache the offspring traversal never returns either. -/
def offspringDivergesOnCycle : Prop :=
  ∀ fuel, getOffspringTermsF cycCache fuel (some cycTerm) = none

theorem walkRel_cyc (sel : Term → List RelItem) (hsel : sel cycTerm = [⟨"T", "Cyc"⟩]) :
    ∀ fuel, walkRel sel cycCache fuel (some cycTerm) = none := by
  intro fuel
  induction fuel with
  | zero => rfl
  | succ fuel ih =>
    rw [walkRel_succ, hsel]
    show walkStep sel cycCache fuel (some []) ⟨"T", "Cyc"⟩ = none
    unfold walkStep
    have hfv : findVal "T" cycCache = some cycTerm := rfl
    rw [hfv, ih]

/-- C8 counterexample: the recursive traversals carry no visited set; on a
concrete cache in which a term is its own transitive ancestor (and its own
offspring) both `getAncestralTerms` and `getOffspringTerms` exhaust any
amount of recursion depth — the JS functions recurse forever. -/
theorem traversals_diverge_on_cycle_cex :
    ancestralDivergesOnCycle ∧ offspringDivergesOnCycle :=
  ⟨walkRel_cyc (fun t => t.isATypeOf) rfl, walkRel_cyc (fun t => t.hasTypes) rfl⟩

theorem walkStep_fold_isSome (sel : Term → List RelItem) (cache : Cache) (fuel : Nat) :
    ∀ (items : List RelItem) (acc : List String),
      (∀ it ∈ items, (walkRel sel cache fuel (findVal it.rid cache)).isSome) →
      (items.foldl (walkStep sel cache fuel) (some acc)).isSome := by
  intro items
  induction items with
  | nil => intro acc _; rfl
  | cons it rest ih =>
    intro acc h
    rw [List.foldl_cons]
    obtain ⟨sub, hsub⟩ := Option.isSome_iff_exists.mp (h it (List.mem_cons_self it rest))
    have hstep : walkStep sel cache fuel (some acc) it = some (acc ++ it.rid :: sub) := by
      unfold walkStep
      rw [hsub]
    rw [hstep]
    exact ih _ (fun i hi => h i (List.mem_cons_of_mem it hi))

/-- On a cache whose selected relation is compatible with a strictly
decreasing rank (i.e. acyclic), the traversal succeeds whenever the fuel
exceeds the rank of the starting term. -/
theorem walkRel_terminates (sel : Term → List RelItem) (cache : Cache) (rank : String → Nat)
    (hrank : ∀ rid t, findVal rid cache = some t → ∀ it ∈ sel t, rank it.rid < rank rid) :
    ∀ (fuel : Nat) (rid : String) (t : Term), findVal rid cache = some t →
      rank rid < fuel → (walkRel sel cache fuel (some t)).isSome := by
  intro fuel
  induction fuel with
  | zero =>
    intro rid t _ h
    omega
  | succ fuel ih =>
    intro rid t hfv hlt
    rw [walkRel_succ]
    apply walkStep_fold_isSome
    intro it hit
    cases hfv2 : findVal it.rid cache with
    | none =>
      rw [walkRel_none]
      rfl
    | some pt =>
      apply ih it.rid pt hfv2
      have h1 := hrank rid t hfv it hit
      omega

/-- C8 (amended): `getAncestralTerms` and `getOffspringTerms` carry NO
visited set, so they terminate only because of the shape of the graph:
whenever the walked relation admits a strictly decreasing rank (an acyclic
cache), the recursion bottoms out within `rank + 1` nested calls; on a
cyclic cache it diverges (see the counterexample). -/
theorem traversals_terminate_acyclic (cache : Cache) (rankA rankO : String → Nat)
    (hA : ∀ rid t, findVal rid cache = some t → ∀ it ∈ t.isATypeOf, rankA it.rid < rankA rid)
    (hO : ∀ rid t, findVal rid cache = some t → ∀ it ∈ t.hasTypes, rankO it.rid < rankO rid) :
    (∀ (fuel : Nat) (rid : String) (t : Term), findVal rid cache = some t →
      rankA rid < fuel → (getAncestralTermsF cache fuel (some t)).isSome) ∧
    (∀ (fuel : Nat) (rid : String) (t : Term), findVal rid cache = some t →
      rankO rid < fuel → (getOffspringTermsF cache fuel (some t)).isSome) :=
  ⟨fun fuel rid t hfv hlt => walkRel_terminates _ cache rankA hA fuel rid t hfv hlt,
   fun fuel rid t hfv hlt => walkRel_terminates _ cache rankO hO fuel rid t hfv hlt⟩

/-- An acyclic four-term cache: `A is_a_type_of B`, `P has_types Q`. -/
def tA0 : Term := ⟨"A", "A", [], "", "", [], [⟨"B", "B"⟩], [], [], [], none⟩

def tB0 : Term := ⟨"B", "B", [], "", "", [], [], [], [], [], none⟩

def tP0 : Term := ⟨"P", "P", [], "", "", [⟨"Q", "Q"⟩], [], [], [], [], none⟩

def tQ0 : Term := ⟨"Q", "Q", [], "", "", [], [], [], [], [], none⟩

def rankCacheW : Cache := [("A", tA0), ("B", tB0), ("P", tP0), ("Q", tQ0)]

def rankW : String → Nat := fun r => if r = "A" ∨ r = "P" then 1 else 0

theorem rankCacheW_cases : ∀ (rid : String) (t : Term), findVal rid rankCacheW = some t →
    (rid = "A" ∧ t = tA0) ∨ (rid = "B" ∧ t = tB0) ∨
    (rid = "P" ∧ t = tP0) ∨ (rid = "Q" ∧ t = tQ0) := by
  intro rid t h
  unfold rankCacheW at h
  simp only [findVal] at h
  split_ifs at h with h1 h2 h3 h4
  · exact Or.inl ⟨h1.symm, (Option.some_inj.mp h).symm⟩
  · exact Or.inr (Or.inl ⟨h2.symm, (Option.some_inj.mp h).symm⟩)
  · exact Or.inr (Or.inr (Or.inl ⟨h3.symm, (Option.some_inj.mp h).symm⟩))
  · exact Or.inr (Or.inr (Or.inr ⟨h4.symm, (Option.some_inj.mp h).symm⟩))

/-- C8 witness: on the acyclic cache both traversals succeed with fuel 2
(strictly more than the starting terms' rank 1). -/
theorem traversals_terminate_acyclic_witness :
    (getAncestralTermsF rankCacheW 2 (some tA0)).isSome = true ∧
    (getOffspringTermsF rankCacheW 2 (some tP0)).isSome = true := by
  have h := traversals_terminate_acyclic rankCacheW rankW rankW
    (by
      intro rid t hfv it hit
      rcases rankCacheW_cases rid t hfv with ⟨rfl, rfl⟩ | ⟨rfl, rfl⟩ | ⟨rfl, rfl⟩ | ⟨rfl, rfl⟩
      · simp only [tA0] at hit
        rcases List.mem_singleton.mp hit with rfl
        decide
      · simp only [tB0] at hit
        cases hit
      · simp only [tP0] at hit
        cases hit
      · simp only [tQ0] at hit
        cases hit)
    (by
      intro rid t hfv it hit
      rcases rankCacheW_cases rid t hfv with ⟨rfl, rfl⟩ | ⟨rfl, rfl⟩ | ⟨rfl, rfl⟩ | ⟨rfl, rfl⟩
      · simp only [tA0] at hit
        cases hit
      · simp only [tB0] at hit
        cases hit
      · simp only [tP0] at hit
        rcases List.mem_singleton.mp hit with rfl
        decide
      · simp only [tQ0] at hit
        cases hit)
  exact ⟨h.1 2 "A" tA0 rfl (by decide), h.2 2 "P" tP0 rfl (by decide)⟩

/-! ### C3: relationship linking and the ancestor exclusion -/

/-- Spec-level transitive reachability along a relationship collection:
`Reaches sel cache t b` holds when `b` is reachable from `t` by following
one or more `sel` edges through the cache (for `sel = is_a_type_of`: `b`
is a transitive ancestor of `t`). -/
inductive Reaches (sel : Term → List RelItem) (cache : Cache) : Term → String → Prop
  | parent (t : Term) (it : RelItem) : it ∈ sel t → Reaches sel cache t it.rid
  | step (t : Term) (it : RelItem) (pt : Term) (b : String) :
      it ∈ sel t → findVal it.rid cache = some pt → Reaches sel cache pt b →
      Reaches sel cache t b

theorem walkStep_fold_none (sel : Term → List RelItem) (cache : Cache) (fuel : Nat) :
    ∀ items : List RelItem, items.foldl (walkStep sel cache fuel) none = none := by
  intro items
  induction items with
  | nil => rfl
  | cons it rest ih =>
    rw [List.foldl_cons]
    have hstep : walkStep sel cache fuel none it = none := rfl
    rw [hstep, ih]

/-- Full characterization of a successful traversal fold: the result
collects the accumulator, each item's RID, and each item's recursive
traversal, and every recursive call succeeded. -/
theorem walkStep_fold_spec (sel : Term → List RelItem) (cache : Cache) (fuel : Nat) :
    ∀ (items : List RelItem) (acc l : List String),
      items.foldl (walkStep sel cache fuel) (some acc) = some l →
      ((∀ b, b ∈ l ↔ b ∈ acc ∨ ∃ it ∈ items, (b = it.rid ∨
          ∃ sub, walkRel sel cache fuel (findVal it.rid cache) = some sub ∧ b ∈ sub)) ∧
       ∀ it ∈ items, ∃ sub, walkRel sel cache fuel (findVal it.rid cache) = some sub) := by
  intro items
  induction items with
  | nil =>
    intro acc l h
    have hacc : acc = l := Option.some_inj.mp h
    subst hacc
    constructor
    · intro b
      simp
    · intro it hit
      cases hit
  | cons it rest ih =>
    intro acc l h
    rw [List.foldl_cons] at h
    cases hsub : walkRel sel cache fuel (findVal it.rid cache) with
    | none =>
      exfalso
      have hstep : walkStep sel cache fuel (some acc) it = none := by
        unfold walkStep
        rw [hsub]
      rw [hstep, walkStep_fold_none] at h
      cases h
    | some sub =>
      have hstep : walkStep sel cache fuel (some acc) it
          = some (acc ++ it.rid :: sub) := by
        unfold walkStep
        rw [hsub]
      rw [hstep] at h
      obtain ⟨ihmem, ihsucc⟩ := ih (acc ++ it.rid :: sub) l h
      constructor
      · intro b
        rw [ihmem b]
        constructor
        · rintro (hb | ⟨jt, hjt, hcase⟩)
          · rcases List.mem_append.mp hb with hb | hb
            · exact Or.inl hb
            · rcases List.mem_cons.mp hb with rfl | hb
              · exact Or.inr ⟨it, List.mem_cons_self it rest, Or.inl rfl⟩
              · exact Or.inr ⟨it, List.mem_cons_self it rest, Or.inr ⟨sub, hsub, hb⟩⟩
          · exact Or.inr ⟨jt, List.mem_cons_of_mem it hjt, hcase⟩
        · rintro (hb | ⟨jt, hjt, hcase⟩)
          · exact Or.inl (List.mem_append_left _ hb)
          · rcases List.mem_cons.mp hjt with rfl | hjt
            · rcases hcase with rfl | ⟨sub2, hsub2, hbsub⟩
              · exact Or.inl (List.mem_append_right _ (List.mem_cons_self _ _))
              · rw [hsub] at hsub2
                have : sub = sub2 := Option.some_inj.mp hsub2
                subst this
                exact Or.inl (List.mem_append_right _ (List.mem_cons_of_mem _ hbsub))
            · exact Or.inr ⟨jt, hjt, hcase⟩
      · intro jt hjt
        rcases List.mem_cons.mp hjt with rfl | hjt
        · exact ⟨sub, hsub⟩
        · exact ihsucc jt hjt

/-- Bridge: a successful traversal lists exactly the terms reachable along
the walked relation. -/
theorem walkRel_mem (sel : Term → List RelItem) (cache : Cache) :
    ∀ (fuel : Nat) (t : Term) (l : List String) (b : String),
      walkRel sel cache fuel (some t) = some l →
      (b ∈ l ↔ Reaches sel cache t b) := by
  intro fuel
  induction fuel with
  | zero =>
    intro t l b h
    rw [walkRel_zero] at h
    cases h
  | succ fuel ih =>
    intro t l b h
    rw [walkRel_succ] at h
    obtain ⟨hmem, hsucc⟩ := walkStep_fold_spec sel cache fuel (sel t) [] l h
    constructor
    · intro hb
      rcases (hmem b).mp hb with hacc | ⟨it, hit, hcase⟩
      · cases hacc
      · rcases hcase with rfl | ⟨sub, hsub, hbsub⟩
        · exact Reaches.parent t it hit
        · cases hfv : findVal it.rid cache with
          | none =>
            rw [hfv, walkRel_none] at hsub
            have : ([] : List String) = sub := Option.some_inj.mp hsub
            rw [← this] at hbsub
            cases hbsub
          | some pt =>
            rw [hfv] at hsub
            exact Reaches.step t it pt b hit hfv ((ih pt sub b hsub).mp hbsub)
    · intro hr
      cases hr with
      | parent t it hit =>
        exact (hmem it.rid).mpr (Or.inr ⟨it, hit, Or.inl rfl⟩)
      | step t it pt b hit hfv hreach =>
        obtain ⟨sub, hsub⟩ := hsucc it hit
        rw [hfv] at hsub
        have hbsub : b ∈ sub := (ih pt sub b hsub).mpr hreach
        exact (hmem b).mpr
          (Or.inr ⟨it, hit, Or.inr ⟨sub, by rw [hfv]; exact hsub, hbsub⟩⟩)

/-- Full characterization of the ref-adding loop: with all object ids
present and pairwise-distinct last segments that do not collide with the
initial property map, the loop succeeds; a `$ref` entry appears for an
associated term exactly when its RID is not in the inherited-or-self
list. -/
theorem addRefsForTerm_spec (inherited : List String) :
    ∀ (aRids : List (String × Option String)) (acc : List (String × PropVal)),
      (∀ p ∈ aRids, p.2 ≠ none) →
      (aRids.map (fun p => lastSegment (p.2.getD ""))).Nodup →
      (∀ p ∈ aRids, findVal (lastSegment (p.2.getD "")) acc = none) →
      ∃ res, addRefsForTerm inherited aRids acc = some res ∧
        (∀ k, (∀ p ∈ aRids, k ≠ lastSegment (p.2.getD "")) →
          findVal k res = findVal k acc) ∧
        (∀ b v, (b, some v) ∈ aRids →
          findVal (lastSegment v) res
            = if b ∈ inherited then none else some (PropVal.ref (some v))) := by
  intro aRids
  induction aRids with
  | nil =>
    intro acc _ _ _
    refine ⟨acc, rfl, fun k _ => rfl, fun b v hb => ?_⟩
    cases hb
  | cons p rest ih =>
    intro acc hvals hnodup hdisj
    obtain ⟨b₀, ov⟩ := p
    cases ov with
    | none => exact absurd rfl (hvals (b₀, none) (List.mem_cons_self _ _))
    | some v₀ =>
      have hnodup' := List.nodup_cons.mp hnodup
      have hseg₀ : ∀ q ∈ rest, lastSegment (q.2.getD "") ≠ lastSegment v₀ := by
        intro q hq he
        apply hnodup'.1
        have hb2 : (fun p => lastSegment ((p : String × Option String).2.getD ""))
            (b₀, some v₀) = lastSegment v₀ := rfl
        rw [hb2, ← he]
        exact List.mem_map_of_mem (fun p => lastSegment (p.2.getD "")) hq
      by_cases hb : b₀ ∈ inherited
      · have hstep : addRefStep inherited (some acc) (b₀, some v₀) = some acc := by
          simp [addRefStep, hb]
        have hfold : addRefsForTerm inherited ((b₀, some v₀) :: rest) acc
            = addRefsForTerm inherited rest acc := by
          show List.foldl _ _ _ = _
          rw [List.foldl_cons, hstep]
          rfl
        obtain ⟨res, hres, hframe, hlast⟩ := ih acc
          (fun q hq => hvals q (List.mem_cons_of_mem _ hq)) hnodup'.2
          (fun q hq => hdisj q (List.mem_cons_of_mem _ hq))
        refine ⟨res, by rw [hfold]; exact hres, ?_, ?_⟩
        · intro k hk
          exact hframe k (fun q hq => hk q (List.mem_cons_of_mem _ hq))
        · intro b v hbv
          rcases List.mem_cons.mp hbv with heq | hbv
          · injection heq with h1 h2
            injection h2 with h2
            rw [h1, h2]
            rw [if_pos hb]
            rw [hframe (lastSegment v₀) (fun q hq he => hseg₀ q hq he.symm)]
            exact hdisj (b₀, some v₀) (List.mem_cons_self _ _)
          · exact hlast b v hbv
      · have hstep : addRefStep inherited (some acc) (b₀, some v₀)
            = some (setKey (lastSegment v₀) (PropVal.ref (some v₀)) acc) := by
          simp [addRefStep, hb]
        have hfold : addRefsForTerm inherited ((b₀, some v₀) :: rest) acc
            = addRefsForTerm inherited rest
                (setKey (lastSegment v₀) (PropVal.ref (some v₀)) acc) := by
          show List.foldl _ _ _ = _
          rw [List.foldl_cons, hstep]
          rfl
        obtain ⟨res, hres, hframe, hlast⟩ :=
          ih (setKey (lastSegment v₀) (PropVal.ref (some v₀)) acc)
            (fun q hq => hvals q (List.mem_cons_of_mem _ hq)) hnodup'.2
            (fun q hq => by
              rw [findVal_setKey_ne _ _ _ _ (hseg₀ q hq)]
              exact hdisj q (List.mem_cons_of_mem _ hq))
        refine ⟨res, by rw [hfold]; exact hres, ?_, ?_⟩
        · intro k hk
          rw [hframe k (fun q hq => hk q (List.mem_cons_of_mem _ hq))]
          exact findVal_setKey_ne _ _ _ _
            (hk (b₀, some v₀) (List.mem_cons_self _ _))
        · intro b v hbv
          rcases List.mem_cons.mp hbv with heq | hbv
          · injection heq with h1 h2
            injection h2 with h2
            rw [h1, h2]
            rw [if_neg hb]
            rw [hframe (lastSegment v₀) (fun q hq he => hseg₀ q hq he.symm)]
            exact findVal_setKey_self _ _ _
          · exact hlast b v hbv

/-- C3: for an association term and each of its associated terms A
(`rtRid`), iterating the linker's inner loop grafts a relation-named
object property into A's document (when the document is fresh for this
relation) and, inside it, adds a `$ref` to associated term B exactly when
B is neither A itself nor a transitive ancestor of A along `is_a_type_of`
edges; a `$ref` to self or to an ancestor is never added.  (Hypotheses:
the associated terms' object ids resolved, their filename segments are
distinct and do not collide with the relation's own property names — as
holds for distinct formatted term names.) -/
theorem linkOneTerm_refs (cfg : Config) (cache : Cache) (fuel : Nat) (relnName : String)
    (schRelationProps : Option (List (String × PropVal)))
    (aRids : List (String × Option String)) (st : RunState)
    (rtRid rtObjId : String) (tA : Term) (schUpdate : SchemaDoc) (anc : List String)
    (hread : readSchema cfg st.files rtObjId = some schUpdate)
    (hfresh : schUpdate.properties = none ∨
      ∃ ps, schUpdate.properties = some ps ∧ findVal relnName ps = none)
    (htA : findVal rtRid cache = some tA)
    (hanc : getAncestralTermsF cache fuel (some tA) = some anc)
    (hvals : ∀ p ∈ aRids, p.2 ≠ none)
    (hnodup : (aRids.map (fun p => lastSegment (p.2.getD ""))).Nodup)
    (hdisj : ∀ p ∈ aRids,
      findVal (lastSegment (p.2.getD "")) (schRelationProps.getD []) = none) :
    ∃ st' innerFinal,
      linkOneTerm cfg cache fuel relnName schRelationProps aRids st (rtRid, some rtObjId)
        = some st' ∧
      (∃ doc ps2,
        findVal (getSchemaFileFromId cfg schUpdate.id) st'.files = some doc ∧
        doc.properties = some ps2 ∧
        findVal relnName ps2 = some (PropVal.objectVal innerFinal)) ∧
      (∀ b v, (b, some v) ∈ aRids →
        (findVal (lastSegment v) innerFinal = some (PropVal.ref (some v)) ↔
          (b ≠ rtRid ∧ ¬ Reaches (fun t => t.isATypeOf) cache tA b))) := by
  have hterm : getTermFromCache cache rtRid = (some tA, []) := by
    unfold getTermFromCache
    rw [htA]
  obtain ⟨innerFinal, haddrefs, _hframe, hlookup⟩ :=
    addRefsForTerm_spec (anc ++ [rtRid]) aRids (schRelationProps.getD [])
      hvals hnodup hdisj
  have hmem : ∀ b, b ∈ anc ++ [rtRid] ↔
      b = rtRid ∨ Reaches (fun t => t.isATypeOf) cache tA b := by
    intro b
    rw [List.mem_append, List.mem_singleton,
      walkRel_mem (fun t => t.isATypeOf) cache fuel tA anc b hanc]
    tauto
  have hiff : ∀ b v, (b, some v) ∈ aRids →
      (findVal (lastSegment v) innerFinal = some (PropVal.ref (some v)) ↔
        (b ≠ rtRid ∧ ¬ Reaches (fun t => t.isATypeOf) cache tA b)) := by
    intro b v hbv
    rw [hlookup b v hbv]
    by_cases hexc : b ∈ anc ++ [rtRid]
    · rw [if_pos hexc]
      constructor
      · intro h
        cases h
      · rintro ⟨hne, hnr⟩
        exfalso
        rcases (hmem b).mp hexc with h | h
        · exact hne h
        · exact hnr h
    · rw [if_neg hexc]
      constructor
      · intro _
        constructor
        · intro hbe
          exact hexc ((hmem b).mpr (Or.inl hbe))
        · intro hr
          exact hexc ((hmem b).mpr (Or.inr hr))
      · intro _
        rfl
  rcases hfresh with hp | ⟨ps, hp, hfv⟩
  · have hdoc0 : ∃ doc0 : SchemaDoc,
        doc0 = { schUpdate with
                 type := some "object",
                 properties := some (setKey relnName (PropVal.objectVal innerFinal) []) } :=
      ⟨_, rfl⟩
    obtain ⟨doc0, hdoc0⟩ := hdoc0
    refine ⟨{ st with
              files := setKey (getSchemaFileFromId cfg schUpdate.id) doc0 st.files,
              log := st.log ++ [" ... WARNING: schema was not an object " ++ rtObjId
                                  ++ " -- forcing its addition"] },
      innerFinal, ?_, ?_, hiff⟩
    · rw [hdoc0]
      simp only [linkOneTerm, hread, hp, hterm, hanc, haddrefs]
    · refine ⟨doc0, setKey relnName (PropVal.objectVal innerFinal) [],
        findVal_setKey_self _ _ _, ?_, findVal_setKey_self _ _ _⟩
      rw [hdoc0]
  · have hdoc0 : ∃ doc0 : SchemaDoc,
        doc0 = { schUpdate with
                 properties := some (setKey relnName (PropVal.objectVal innerFinal) ps) } :=
      ⟨_, rfl⟩
    obtain ⟨doc0, hdoc0⟩ := hdoc0
    refine ⟨{ st with
              files := setKey (getSchemaFileFromId cfg schUpdate.id) doc0 st.files,
              log := st.log ++ [] },
      innerFinal, ?_, ?_, hiff⟩
    · rw [hdoc0]
      simp only [linkOneTerm, hread, hp, hfv, hterm, hanc, haddrefs]
    · refine ⟨doc0, setKey relnName (PropVal.objectVal innerFinal) ps,
        findVal_setKey_self _ _ _, ?_, findVal_setKey_self _ _ _⟩
      rw [hdoc0]

/-- Observer: the property value stored at `properties[prop].properties[key]`
of the document in `file` after a linker step. -/
def propAt (res : Option RunState) (file prop key : String) : Option PropVal :=
  (res.bind (fun s => (findVal file s.files).bind
    (fun d => findVal prop (d.properties.getD [])))).bind
    (fun pv => match pv with
      | PropVal.objectVal inner => findVal key inner
      | _ => none)

/-- The spec scenario's fixtures: association `Purchase` links `Customer`
and `Product`, whose schema documents were already emitted. -/
def tCustomer : Term := ⟨"c", "Customer", [], "", "", [], [], [], [], [], none⟩

def tProduct : Term := ⟨"p", "Product", [], "", "", [], [], [], [], [], none⟩

def cacheCP : Cache := [("c", tCustomer), ("p", tProduct)]

def docC : SchemaDoc := { id := "ns/Customer", title := "Customer", description := "" }

def docP : SchemaDoc := { id := "ns/Product", title := "Product", description := "" }

def stCP : RunState :=
  ⟨["c", "p"], [],
    [("dir/Customer.json", docC), ("dir/Product.json", docP)], [], []⟩

def aRidsCP : List (String × Option String) :=
  [("c", some "ns/Customer"), ("p", some "ns/Product")]

/-- C3 witness (the spec's `Purchase` scenario): after linking, inside
`Customer`'s `purchase` property a `$ref` to `Product` appears, and no
self-referencing `$ref` to `Customer` does. -/
theorem linkOneTerm_refs_witness :
    propAt (linkOneTerm cfg0 cacheCP 1 "purchase" none aRidsCP stCP
        ("c", some "ns/Customer")) "dir/Customer.json" "purchase" "Product"
      = some (PropVal.ref (some "ns/Product")) ∧
    propAt (linkOneTerm cfg0 cacheCP 1 "purchase" none aRidsCP stCP
        ("c", some "ns/Customer")) "dir/Customer.json" "purchase" "Customer"
      ≠ some (PropVal.ref (some "ns/Customer")) := by
  obtain ⟨st', innerFinal, heq, ⟨doc, ps2, hfile, hprops, hpv⟩, hiff⟩ :=
    linkOneTerm_refs cfg0 cacheCP 1 "purchase" none aRidsCP stCP
      "c" "ns/Customer" tCustomer docC [] rfl (Or.inl rfl) rfl rfl
      (by decide) (by decide) (fun p _ => rfl)
  have hfile' : findVal "dir/Customer.json" st'.files = some doc := hfile
  have hchain : ∀ key, propAt (some st') "dir/Customer.json" "purchase" key
      = findVal key innerFinal := by
    intro key
    show ((findVal "dir/Customer.json" st'.files).bind
      (fun d => findVal "purchase" (d.properties.getD []))).bind _ = _
    rw [hfile']
    show (findVal "purchase" (doc.properties.getD [])).bind _ = _
    rw [hprops]
    show (findVal "purchase" ps2).bind _ = _
    rw [hpv]
    rfl
  have hnr : ∀ b, ¬ Reaches (fun t => t.isATypeOf) cacheCP tCustomer b := by
    intro b h
    cases h with
    | parent t it hit => exact absurd hit (by simp [tCustomer])
    | step t it pt b hit hfv hr => exact absurd hit (by simp [tCustomer])
  constructor
  · rw [heq, hchain "Product"]
    exact (hiff "p" "ns/Product" (by decide)).mpr ⟨by decide, hnr "p"⟩
  · rw [heq, hchain "Customer"]
    intro hcontra
    exact ((hiff "c" "ns/Customer" (by decide)).mp hcontra).1 rfl

/-! ### C10: decimal rendering and identifier distinctness -/

/-- Little-endian decimal decoding, the inverse of `natDigits`. -/
def ofDecDigits : List Nat → Nat
  | [] => 0
  | d :: ds => d + 10 * ofDecDigits ds

theorem natDigitsAux_ofDec : ∀ (fuel n : Nat), n ≤ fuel →
    ofDecDigits (natDigitsAux fuel n) = n := by
  intro fuel
  induction fuel with
  | zero =>
    intro n hn
    interval_cases n
    rfl
  | succ fuel ih =>
    intro n hn
    cases n with
    | zero => rfl
    | succ m =>
      have hdiv : (m + 1) / 10 ≤ fuel := by
        have := Nat.div_lt_self (Nat.succ_pos m) (by norm_num : 1 < 10)
        omega
      show ofDecDigits (((m + 1) % 10) :: natDigitsAux fuel ((m + 1) / 10)) = m + 1
      show ((m + 1) % 10) + 10 * ofDecDigits (natDigitsAux fuel ((m + 1) / 10)) = m + 1
      rw [ih _ hdiv]
      exact Nat.mod_add_div (m + 1) 10

theorem natDigits_inj : Function.Injective natDigits := by
  intro a b h
  have ha := natDigitsAux_ofDec a a (le_refl a)
  have hb := natDigitsAux_ofDec b b (le_refl b)
  unfold natDigits at h
  rw [← ha, ← hb, h]

theorem natDigitsAux_lt : ∀ (fuel n : Nat), ∀ d ∈ natDigitsAux fuel n, d < 10 := by
  intro fuel
  induction fuel with
  | zero => intro n d hd; cases hd
  | succ fuel ih =>
    intro n d hd
    cases n with
    | zero => cases hd
    | succ m =>
      rcases List.mem_cons.mp hd with rfl | hd
      · exact Nat.mod_lt _ (by norm_num)
      · exact ih _ d hd

theorem digitChar_inj_lt (a b : Nat) (ha : a < 10) (hb : b < 10)
    (h : Nat.digitChar a = Nat.digitChar b) : a = b := by
  interval_cases a <;> interval_cases b <;> first | rfl | exact absurd h (by decide)

theorem map_digitChar_inj : ∀ (l₁ l₂ : List Nat), (∀ d ∈ l₁, d < 10) → (∀ d ∈ l₂, d < 10) →
    l₁.map Nat.digitChar = l₂.map Nat.digitChar → l₁ = l₂ := by
  intro l₁
  induction l₁ with
  | nil =>
    intro l₂ _ _ h
    cases l₂ with
    | nil => rfl
    | cons b t => simp at h
  | cons a t ih =>
    intro l₂ h₁ h₂ h
    cases l₂ with
    | nil => simp at h
    | cons b s =>
      simp only [List.map_cons, List.cons.injEq] at h
      have hab : a = b :=
        digitChar_inj_lt a b (h₁ a (List.mem_cons_self a t)) (h₂ b (List.mem_cons_self b s)) h.1
      rw [hab, ih s (fun d hd => h₁ d (List.mem_cons_of_mem a hd))
        (fun d hd => h₂ d (List.mem_cons_of_mem b hd)) h.2]

theorem jsNumToString_inj : Function.Injective jsNumToString := by
  intro a b h
  unfold jsNumToString at h
  by_cases ha : a = 0 <;> by_cases hb : b = 0
  · rw [ha, hb]
  · rw [if_pos ha, if_neg hb] at h
    have h' : (['0'] : List Char).asString = ((natDigits b).reverse.map Nat.digitChar).asString := h
    have hd := List.asString_inj.mp h'
    have hlt : ∀ d ∈ (natDigits b).reverse, d < 10 := by
      intro d hd
      exact natDigitsAux_lt b b d (List.mem_reverse.mp hd)
    have : ([0] : List Nat) = (natDigits b).reverse := by
      apply map_digitChar_inj _ _ (by intro d hd; simp at hd; omega) hlt
      simpa using hd
    have hb0 : natDigits b = [0] := by
      have := congrArg List.reverse this
      simpa using this.symm
    have := natDigitsAux_ofDec b b (le_refl b)
    unfold natDigits at hb0
    rw [hb0] at this
    simp [ofDecDigits] at this
    omega
  · rw [if_neg ha, if_pos hb] at h
    have h' : ((natDigits a).reverse.map Nat.digitChar).asString = (['0'] : List Char).asString := h
    have hd := List.asString_inj.mp h'
    have hlt : ∀ d ∈ (natDigits a).reverse, d < 10 := by
      intro d hd
      exact natDigitsAux_lt a a d (List.mem_reverse.mp hd)
    have : (natDigits a).reverse = ([0] : List Nat) := by
      apply map_digitChar_inj _ _ hlt (by intro d hd; simp at hd; omega)
      simpa using hd
    have ha0 : natDigits a = [0] := by
      have := congrArg List.reverse this
      simpa using this
    have := natDigitsAux_ofDec a a (le_refl a)
    unfold natDigits at ha0
    rw [ha0] at this
    simp [ofDecDigits] at this
    omega
  · rw [if_neg ha, if_neg hb] at h
    have hd := List.asString_inj.mp h
    have hmap := map_digitChar_inj (natDigits a).reverse (natDigits b).reverse
      (fun d hdm => natDigitsAux_lt a a d (List.mem_reverse.mp hdm))
      (fun d hdm => natDigitsAux_lt b b d (List.mem_reverse.mp hdm)) hd
    have : natDigits a = natDigits b := by
      have := congrArg List.reverse hmap
      simpa using this
    exact natDigits_inj this

theorem xt_append_inj (s t : String) (h : "xt" ++ s = "xt" ++ t) : s = t := by
  have hd : ("xt" ++ s).data = ("xt" ++ t).data := congrArg String.data h
  rw [String.data_append, String.data_append] at hd
  have hc := List.append_cancel_left hd
  cases s
  cases t
  exact congrArg String.mk hc

theorem runIds_out : ∀ (ids : List String) (g : Nat) (m : List (String × String)),
    (runIds ⟨g, m⟩ ids).1 = (List.range ids.length).map
      (fun i => "xt" ++ jsNumToString (g + i + 1)) ∧
    (runIds ⟨g, m⟩ ids).2.idGen = g + ids.length := by
  intro ids
  induction ids with
  | nil => intro g m; exact ⟨rfl, rfl⟩
  | cons x rest ih =>
    intro g m
    obtain ⟨ihout, ihgen⟩ := ih (g + 1) (setKey x ("xt" ++ jsNumToString (g + 1)) m)
    constructor
    · show ("xt" ++ jsNumToString (g + 1))
          :: (runIds ⟨g + 1, setKey x ("xt" ++ jsNumToString (g + 1)) m⟩ rest).1 = _
      rw [ihout]
      simp only [List.length_cons]
      rw [List.range_succ_eq_map, List.map_cons, List.map_map]
      congr 1
      apply List.map_congr_left
      intro i _
      simp only [Function.comp_apply]
      congr 2
      omega
    · show (runIds ⟨g + 1, setKey x ("xt" ++ jsNumToString (g + 1)) m⟩ rest).2.idGen = _
      rw [ihgen]
      simp only [List.length_cons]
      omega

/-- Identities not occurring in the processed list keep their mapping. -/
theorem runIds_map_frame : ∀ (ids : List String) (st : IdState) (k : String),
    k ∉ ids → findVal k (runIds st ids).2.identToId = findVal k st.identToId := by
  intro ids
  induction ids with
  | nil => intro st k _; rfl
  | cons x rest ih =>
    intro st k hk
    show findVal k (runIds _ rest).2.identToId = _
    rw [ih _ k (fun hm => hk (List.mem_cons_of_mem x hm))]
    exact findVal_setKey_ne _ _ _ _ (fun he => hk (he ▸ List.mem_cons_self x rest))

theorem runIds_map_last : ∀ (pre : List String) (s : String) (post : List String)
    (g : Nat) (m : List (String × String)), s ∉ post →
    findVal s (runIds ⟨g, m⟩ (pre ++ s :: post)).2.identToId
      = some ("xt" ++ jsNumToString (g + pre.length + 1)) := by
  intro pre
  induction pre with
  | nil =>
    intro s post g m hs
    show findVal s
      (runIds ⟨g + 1, setKey s ("xt" ++ jsNumToString (g + 1)) m⟩ post).2.identToId = _
    rw [runIds_map_frame post _ s hs]
    exact findVal_setKey_self _ _ _
  | cons x pre ih =>
    intro s post g m hs
    show findVal s
      (runIds ⟨g + 1, setKey x ("xt" ++ jsNumToString (g + 1)) m⟩
        (pre ++ s :: post)).2.identToId = _
    rw [ih s post (g + 1) _ hs]
    congr 3
    simp only [List.length_cons]
    omega

/-- C10: every `_mapObjectToNextId` call returns `"xt"` plus the strictly
incremented counter, so all identifiers issued in one run are pairwise
distinct; and when the same identity string is passed more than once, the
`_objectIdentitiesToIds` map retains only the identifier generated by the
most recent call for that string. -/
theorem mapObjectToNextId_distinct (st : IdState) (identities pre post : List String)
    (s : String) (hsplit : identities = pre ++ s :: post) (hlast : s ∉ post) :
    (runIds st identities).1 = (List.range identities.length).map
      (fun i => "xt" ++ jsNumToString (st.idGen + i + 1)) ∧
    (runIds st identities).1.Nodup ∧
    (runIds st identities).2.idGen = st.idGen + identities.length ∧
    findVal s (runIds st identities).2.identToId
      = some ("xt" ++ jsNumToString (st.idGen + pre.length + 1)) := by
  obtain ⟨g, m⟩ := st
  obtain ⟨hout, hgen⟩ := runIds_out identities g m
  refine ⟨hout, ?_, hgen, ?_⟩
  · rw [hout]
    exact List.Nodup.map
      (fun i j hij => by
        have := jsNumToString_inj (xt_append_inj _ _ hij)
        omega)
      (List.nodup_range identities.length)
  · rw [hsplit]
    exact runIds_map_last pre s post g m hlast

/-- C10 witness: the run `["a", "b", "a"]` issues `xt1, xt2, xt3` (all
distinct) and the map finally binds `"a"` to `xt3`, the most recent. -/
theorem mapObjectToNextId_distinct_witness :
    (runIds ⟨0, []⟩ ["a", "b", "a"]).1 = ["xt1", "xt2", "xt3"] ∧
    (runIds ⟨0, []⟩ ["a", "b", "a"]).1.Nodup ∧
    findVal "a" (runIds ⟨0, []⟩ ["a", "b", "a"]).2.identToId = some "xt3" := by
  have h := mapObjectToNextId_distinct ⟨0, []⟩ ["a", "b", "a"] ["a", "b"] [] "a"
    rfl (by decide)
  refine ⟨?_, h.2.1, ?_⟩
  · rw [h.1]
    rfl
  · rw [h.2.2.2]
    rfl

end IgcJsonSchema
